import Mathlib

/-!
Shallow embedding of `src/2024/day16/aoc2024-d16-python/src/aoc2024_d16_python/day16.py`
(Advent of Code 2024 day 16 solver), together with a verification of the
behavioural claims about its two search procedures `find_astar` and
`find_djikstra`.

Modelling decisions, all mirroring the source:
* `Direction`, `Point`, `Maze` are the dataclasses of the source; `Direction.mul`
  reproduces `Direction.__mul__` verbatim, including the fact that the second
  component is computed from `c1r0` (the field `c0r1` is never read by the code).
* Python's `PriorityQueue` is modelled as a list together with `popMinBy`, which
  removes a minimal-priority element (the leftmost one); the priority of an
  `NodeAStar` is its `f = g + h` (the `__lt__` of the source compares `f`), the
  priority of a `NodeDjikstra` is its `cost` (`order=True` with all other fields
  `compare=False`).
* Python dicts keyed by points / states / (point, cost) pairs are modelled as
  association lists; sets of points as lists compared by membership.
* Both search loops are fuel-indexed step functions; `none` means the fuel ran
  out, `some` carries the outcome the Python function would produce: a result,
  the `Exception("Route is not found")` raised on queue exhaustion, or — for
  `find_djikstra` — the `KeyError` a missing `trails` entry would raise.
-/

/-- `COST_FORWARD` of the source. -/
def COST_FORWARD : Nat := 1

/-- `COST_ROTATE` of the source. -/
def COST_ROTATE : Nat := 1000

/-- The frozen `Direction` dataclass: an integer vector. -/
structure Direction where
  x : Int
  y : Int
deriving DecidableEq, Repr

/-- A rotation matrix, as in the `Rotation` class of the source:
entry `cIrJ` is column `I`, row `J`. -/
structure Rotation where
  c0r0 : Int
  c1r0 : Int
  c0r1 : Int
  c1r1 : Int
deriving DecidableEq, Repr

/-- `RotateLeft` of the source. -/
def RotateLeft : Rotation := ⟨0, -1, 1, 0⟩

/-- `RotateRight` of the source. -/
def RotateRight : Rotation := ⟨0, 1, -1, 0⟩

/-- `Direction.__mul__` of the source, verbatim: note that both components are
computed with `c1r0`; the field `c0r1` is never used by the Python code. -/
def Direction.mul (d : Direction) (r : Rotation) : Direction :=
  ⟨d.x * r.c0r0 + d.y * r.c1r0, d.x * r.c1r0 + d.y * r.c1r1⟩

/-- The matrix application the `Rotation` class documents by its field names
(column `I`, row `J`), i.e. what `Direction.__mul__` was evidently meant to
compute: the second component reads `c0r1`, not `c1r0`. -/
def Direction.mulSpec (d : Direction) (r : Rotation) : Direction :=
  ⟨d.x * r.c0r0 + d.y * r.c1r0, d.x * r.c0r1 + d.y * r.c1r1⟩

/-- The frozen `Point` dataclass. -/
structure Point where
  x : Int
  y : Int
deriving DecidableEq, Repr

/-- `Point.__add__` of the source. -/
def Point.add (p : Point) (d : Direction) : Point :=
  ⟨p.x + d.x, p.y + d.y⟩

/-- The `Wall`/`Space` tile values stored in `Maze.tiles`. -/
inductive Tile where
  | wall : Tile
  | space : Tile
deriving DecidableEq, Repr

/-- Lookup in an association list, as a Python `dict.get`. -/
def alLookup {κ ν : Type} [DecidableEq κ] : List (κ × ν) → κ → Option ν
  | [], _ => none
  | (k', v) :: rest, k => if k' = k then some v else alLookup rest k

/-- `dict[k] = v` on an association list: replaces the binding if present,
otherwise appends it. -/
def alUpdate {κ ν : Type} [DecidableEq κ] : List (κ × ν) → κ → ν → List (κ × ν)
  | [], k, v => [(k, v)]
  | (k', v') :: rest, k, v =>
      if k' = k then (k, v) :: rest else (k', v') :: alUpdate rest k v

/-- The `Maze` dataclass.  `tiles` holds the wall entries produced by `parse`
(`width` and `height` are never consulted by the searches). -/
structure Maze where
  start : Point
  endp : Point
  tiles : List (Point × Tile)
  width : Nat
  height : Nat
deriving DecidableEq, Repr

/-- `maze.tiles.get(p, Space())` of the source. -/
def Maze.tileAt (mz : Maze) (p : Point) : Tile :=
  (alLookup mz.tiles p).getD Tile.space

/-- `DIRECTION_START` of the source. -/
def DIRECTION_START : Direction := ⟨1, 0⟩

/-- `distance_to_end` of the source: the Manhattan distance from `p` to the
end of the maze. -/
def distance_to_end (mz : Maze) (p : Point) : Nat :=
  (mz.endp.x - p.x).natAbs + (mz.endp.y - p.y).natAbs

/-- A trail (`dict[Point, bool]` in the source): the list of its keys in
insertion order. -/
def trailAdd (t : List Point) (p : Point) : List Point :=
  if p ∈ t then t else t ++ [p]

/-- Remove a minimal-priority element from a list: the model of
`PriorityQueue.get` (the leftmost minimum is taken; only the min-property of the
result is ever used by the proofs, so the tie-breaking choice is immaterial). -/
def popMinBy {α : Type} (prio : α → Nat) : List α → Option (α × List α)
  | [] => none
  | a :: rest =>
      match popMinBy prio rest with
      | none => some (a, rest)
      | some (m, rest') =>
          if prio a ≤ prio m then some (a, rest) else some (m, a :: rest')

/-- The search state used as key of the `closed` dicts: a
`(direction, point)` pair. -/
structure SState where
  dir : Direction
  pt : Point
deriving DecidableEq, Repr

/-- The `NodeAStar` dataclass. -/
structure NodeAStar where
  direction : Direction
  point : Point
  g : Nat
  h : Nat
  trail : List Point
deriving DecidableEq, Repr

/-- `NodeAStar.f`, the priority the source's `__lt__` compares. -/
def NodeAStar.f (n : NodeAStar) : Nat := n.g + n.h

/-- The configuration of the `find_astar` loop: the open priority queue and the
`closed` dict (a set of states). -/
structure CfgA where
  openq : List NodeAStar
  closedl : List SState
deriving DecidableEq, Repr

/-- One iteration of `find_astar`'s `while` loop can end the search with a
result, raise, or continue with a new configuration. -/
inductive StepA where
  | next : CfgA → StepA
  | found : Nat → List Point → StepA
  | fail : StepA
deriving DecidableEq, Repr

/-- The forward successor pushed by `find_astar`. -/
def fwdA (mz : Maze) (cur : NodeAStar) : NodeAStar :=
  ⟨cur.direction, cur.point.add cur.direction, cur.g + COST_FORWARD,
    distance_to_end mz (cur.point.add cur.direction),
    trailAdd cur.trail (cur.point.add cur.direction)⟩

/-- The rotate-left successor pushed by `find_astar`. -/
def rotLA (cur : NodeAStar) : NodeAStar :=
  ⟨cur.direction.mul RotateLeft, cur.point, cur.g + COST_ROTATE, cur.h, cur.trail⟩

/-- The rotate-right successor pushed by `find_astar`. -/
def rotRA (cur : NodeAStar) : NodeAStar :=
  ⟨cur.direction.mul RotateRight, cur.point, cur.g + COST_ROTATE, cur.h, cur.trail⟩

/-- One iteration of the `find_astar` loop, clause by clause:
empty queue means the final `raise`; a popped node at the end point returns;
a closed state is discarded; otherwise the state is closed and, unless the
*current* tile is a wall, the three successors are pushed. -/
def stepA (mz : Maze) (cfg : CfgA) : StepA :=
  match popMinBy NodeAStar.f cfg.openq with
  | none => .fail
  | some (cur, rest) =>
      if cur.point = mz.endp then .found cur.g cur.trail
      else if ⟨cur.direction, cur.point⟩ ∈ cfg.closedl then .next ⟨rest, cfg.closedl⟩
      else
        let closed' := cfg.closedl ++ [⟨cur.direction, cur.point⟩]
        if mz.tileAt cur.point = Tile.wall then .next ⟨rest, closed'⟩
        else .next ⟨rest ++ [fwdA mz cur, rotLA cur, rotRA cur], closed'⟩

/-- Outcome of `find_astar`: the returned `(cost, trail)` pair or the raised
`Exception("Route is not found")`. -/
inductive ARes where
  | found : Nat → List Point → ARes
  | noRoute : ARes
deriving DecidableEq, Repr

/-- The `find_astar` loop, indexed by fuel (`none` = fuel exhausted). -/
def runAstar (mz : Maze) : CfgA → Nat → Option ARes
  | _, 0 => none
  | cfg, fuel + 1 =>
      match stepA mz cfg with
      | .found c t => some (.found c t)
      | .fail => some .noRoute
      | .next cfg' => runAstar mz cfg' fuel

/-- The initial configuration of `find_astar`: one open node at the reindeer's
position, and an empty closed dict. -/
def initA (mz : Maze) (reindeer : Point) (d : Direction) : CfgA :=
  ⟨[⟨d, reindeer, 0, distance_to_end mz reindeer, [reindeer]⟩], []⟩

/-- `find_astar` of the source (fuel-indexed). -/
def find_astar (mz : Maze) (reindeer : Point) (d : Direction) (fuel : Nat) :
    Option ARes :=
  runAstar mz (initA mz reindeer d) fuel

/-- The `NodeDjikstra` dataclass. -/
structure NodeD where
  cost : Nat
  direction : Direction
  point : Point
deriving DecidableEq, Repr

/-- The trails dict of `find_djikstra`: `(point, cost) ↦ set of points`. -/
def TrailsD : Type := List ((Point × Nat) × List Point)

instance : DecidableEq TrailsD := by unfold TrailsD; infer_instance

instance : Repr TrailsD := by unfold TrailsD; infer_instance

/-- Insert a point into a set-as-list (no-op when already present). -/
def setIns (s : List Point) (p : Point) : List Point :=
  if p ∈ s then s else s ++ [p]

/-- Union of two sets-as-lists. -/
def setUnion (a b : List Point) : List Point :=
  b.foldl setIns a

/-- The configuration of the `find_djikstra` loop. -/
structure CfgD where
  openq : List NodeD
  closedl : List SState
  trails : TrailsD
deriving DecidableEq, Repr

/-- One iteration of `find_djikstra`'s loop can return, raise the final
`Exception`, raise a `KeyError` on a missing trails entry, or continue. -/
inductive StepD where
  | next : CfgD → StepD
  | found : Nat → List Point → StepD
  | fail : StepD
  | keyError : StepD
deriving DecidableEq, Repr

/-- The three successor nodes generated by `find_djikstra` (forward, rotate
left, rotate right, in the order the source builds them). -/
def succD (cur : NodeD) : List NodeD :=
  [⟨cur.cost + COST_FORWARD, cur.direction, cur.point.add cur.direction⟩,
   ⟨cur.cost + COST_ROTATE, cur.direction.mul RotateLeft, cur.point⟩,
   ⟨cur.cost + COST_ROTATE, cur.direction.mul RotateRight, cur.point⟩]

/-- One pass of the `for node in nodes` body: reads the entry of the current
node (a `KeyError` if absent, hence `Option`), then unions it, together with
the new node's point, into the new node's entry. -/
def relaxOne (curKey : Point × Nat) (tr : TrailsD) (nd : NodeD) : Option TrailsD :=
  match alLookup tr curKey with
  | none => none
  | some parent =>
      some (alUpdate tr (nd.point, nd.cost)
        (setIns (setUnion ((alLookup tr (nd.point, nd.cost)).getD []) parent) nd.point))

/-- The whole `for node in nodes` loop over the trails dict. -/
def relaxAll (curKey : Point × Nat) : TrailsD → List NodeD → Option TrailsD
  | tr, [] => some tr
  | tr, nd :: nds =>
      match relaxOne curKey tr nd with
      | none => none
      | some tr' => relaxAll curKey tr' nds

/-- One iteration of the `find_djikstra` loop, clause by clause: the end test
first, then the closed test, then closing, then — unless the *current* tile is
a wall — the trails updates and pushes for all three successors. -/
def stepD (mz : Maze) (cfg : CfgD) : StepD :=
  match popMinBy NodeD.cost cfg.openq with
  | none => .fail
  | some (cur, rest) =>
      if cur.point = mz.endp then
        match alLookup cfg.trails (cur.point, cur.cost) with
        | some s => .found cur.cost s
        | none => .keyError
      else if ⟨cur.direction, cur.point⟩ ∈ cfg.closedl then
        .next ⟨rest, cfg.closedl, cfg.trails⟩
      else
        let closed' := cfg.closedl ++ [⟨cur.direction, cur.point⟩]
        if mz.tileAt cur.point = Tile.wall then .next ⟨rest, closed', cfg.trails⟩
        else
          match relaxAll (cur.point, cur.cost) cfg.trails (succD cur) with
          | none => .keyError
          | some tr' => .next ⟨rest ++ succD cur, closed', tr'⟩

/-- Outcome of `find_djikstra`. -/
inductive DRes where
  | found : Nat → List Point → DRes
  | noRoute : DRes
  | keyError : DRes
deriving DecidableEq, Repr

/-- The `find_djikstra` loop, indexed by fuel. -/
def runD (mz : Maze) : CfgD → Nat → Option DRes
  | _, 0 => none
  | cfg, fuel + 1 =>
      match stepD mz cfg with
      | .found c s => some (.found c s)
      | .fail => some .noRoute
      | .keyError => some .keyError
      | .next cfg' => runD mz cfg' fuel

/-- The initial configuration of `find_djikstra`. -/
def initD (_mz : Maze) (reindeer : Point) (d : Direction) : CfgD :=
  ⟨[⟨0, d, reindeer⟩], [], [((reindeer, 0), [reindeer])]⟩

/-- `find_djikstra` of the source (fuel-indexed). -/
def find_djikstra (mz : Maze) (reindeer : Point) (d : Direction) (fuel : Nat) :
    Option DRes :=
  runD mz (initD mz reindeer d) fuel

/-- The four cardinal unit headings (the heading set of the spec's data
model; `DIRECTION_START` is one of them). -/
def cardinals : List Direction := [⟨1, 0⟩, ⟨0, 1⟩, ⟨-1, 0⟩, ⟨0, -1⟩]

/-! ### Properties of the priority-queue model -/

theorem popMinBy_eq_none {α : Type} (p : α → Nat) (l : List α) :
    popMinBy p l = none ↔ l = [] := by
  cases l with
  | nil => simp [popMinBy]
  | cons a rest =>
      simp only [popMinBy]
      constructor
      · intro h
        cases hr : popMinBy p rest with
        | none => rw [hr] at h; simp at h
        | some pr =>
            obtain ⟨m, r'⟩ := pr
            rw [hr] at h
            dsimp at h
            split at h <;> simp at h
      · intro h
        exact absurd h (List.cons_ne_nil a rest)

theorem popMinBy_perm {α : Type} (p : α → Nat) :
    ∀ {l : List α} {m : α} {r : List α}, popMinBy p l = some (m, r) →
      l.Perm (m :: r) := by
  intro l
  induction l with
  | nil => intro m r h; simp [popMinBy] at h
  | cons a rest ih =>
      intro m r h
      simp only [popMinBy] at h
      cases hr : popMinBy p rest with
      | none =>
          rw [hr] at h
          simp only [Option.some.injEq, Prod.mk.injEq] at h
          obtain ⟨rfl, rfl⟩ := h
          exact List.Perm.refl _
      | some pr =>
          obtain ⟨m', r'⟩ := pr
          rw [hr] at h
          dsimp at h
          split at h
          · simp only [Option.some.injEq, Prod.mk.injEq] at h
            obtain ⟨rfl, rfl⟩ := h
            exact List.Perm.refl _
          · simp only [Option.some.injEq, Prod.mk.injEq] at h
            obtain ⟨rfl, rfl⟩ := h
            exact ((ih hr).cons a).trans (List.Perm.swap _ a _)

theorem popMinBy_min {α : Type} (p : α → Nat) :
    ∀ {l : List α} {m : α} {r : List α}, popMinBy p l = some (m, r) →
      ∀ x ∈ l, p m ≤ p x := by
  intro l
  induction l with
  | nil => intro m r h; simp [popMinBy] at h
  | cons a rest ih =>
      intro m r h x hx
      simp only [popMinBy] at h
      cases hr : popMinBy p rest with
      | none =>
          rw [hr] at h
          simp only [Option.some.injEq, Prod.mk.injEq] at h
          obtain ⟨rfl, rfl⟩ := h
          rcases List.mem_cons.mp hx with rfl | hx'
          · exact le_refl _
          · rw [popMinBy_eq_none] at hr
            subst hr
            simp at hx'
      | some pr =>
          obtain ⟨m', r'⟩ := pr
          rw [hr] at h
          dsimp at h
          split at h
          case isTrue hle =>
            simp only [Option.some.injEq, Prod.mk.injEq] at h
            obtain ⟨rfl, rfl⟩ := h
            rcases List.mem_cons.mp hx with rfl | hx'
            · exact le_refl _
            · exact le_trans hle (ih hr x hx')
          case isFalse hle =>
            simp only [Option.some.injEq, Prod.mk.injEq] at h
            obtain ⟨rfl, rfl⟩ := h
            rcases List.mem_cons.mp hx with rfl | hx'
            · exact le_of_not_le hle
            · exact ih hr x hx'

theorem popMinBy_mem {α : Type} {p : α → Nat} {l : List α} {m : α} {r : List α}
    (h : popMinBy p l = some (m, r)) : m ∈ l :=
  (popMinBy_perm p h).mem_iff.mpr (List.mem_cons_self m r)

theorem popMinBy_mem_iff {α : Type} {p : α → Nat} {l : List α} {m : α} {r : List α}
    (h : popMinBy p l = some (m, r)) : ∀ x, x ∈ l ↔ x = m ∨ x ∈ r := by
  intro x
  rw [(popMinBy_perm p h).mem_iff, List.mem_cons]

theorem popMinBy_map {α β : Type} (p1 : α → Nat) (p2 : β → Nat) (f : α → β) :
    ∀ (l : List α), (∀ a ∈ l, p2 (f a) = p1 a) →
      popMinBy p2 (l.map f) =
        (popMinBy p1 l).map (fun x => (f x.1, x.2.map f)) := by
  intro l
  induction l with
  | nil => intro _; rfl
  | cons a rest ih =>
      intro hp
      simp only [List.map_cons, popMinBy]
      rw [ih (fun x hx => hp x (List.mem_cons_of_mem a hx))]
      cases hr : popMinBy p1 rest with
      | none => rfl
      | some pr =>
          obtain ⟨m, r'⟩ := pr
          dsimp
          rw [hp a (List.mem_cons_self a rest),
            hp m (List.mem_cons_of_mem a (popMinBy_mem hr))]
          split <;> rfl

/-! ### The transition graph explored by both searches

A state is a `(direction, point)` pair; the edges are exactly the successors
either search generates: from a state whose current tile is not a wall, move
forward (cost `COST_FORWARD`) or rotate in place either way
(cost `COST_ROTATE`). -/

/-- One edge of the search graph, with its cost. -/
def edgeG (mz : Maze) (s t : SState) (e : Nat) : Prop :=
  mz.tileAt s.pt ≠ Tile.wall ∧
    ((t = ⟨s.dir, s.pt.add s.dir⟩ ∧ e = COST_FORWARD) ∨
     (t = ⟨s.dir.mul RotateLeft, s.pt⟩ ∧ e = COST_ROTATE) ∨
     (t = ⟨s.dir.mul RotateRight, s.pt⟩ ∧ e = COST_ROTATE))

/-- `Reach mz s t c`: there is a path from state `s` to state `t` of total
cost `c` in the search graph of `mz`. -/
inductive Reach (mz : Maze) (s : SState) : SState → Nat → Prop where
  | refl : Reach mz s s 0
  | tail {t u : SState} {c e : Nat} :
      Reach mz s t c → edgeG mz t u e → Reach mz s u (c + e)

theorem edgeG_cost_pos {mz : Maze} {s t : SState} {e : Nat}
    (h : edgeG mz s t e) : 1 ≤ e := by
  rcases h.2 with ⟨_, rfl⟩ | ⟨_, rfl⟩ | ⟨_, rfl⟩ <;> simp [COST_FORWARD, COST_ROTATE]

theorem reach_zero {mz : Maze} {s t : SState} (h : Reach mz s t 0) : s = t := by
  generalize hc : (0 : Nat) = c0 at *
  cases h with
  | refl => rfl
  | tail hr he =>
      exfalso
      have := edgeG_cost_pos he
      omega

theorem reach_trans {mz : Maze} {s t u : SState} {c d : Nat}
    (h1 : Reach mz s t c) (h2 : Reach mz t u d) : Reach mz s u (c + d) := by
  induction h2 with
  | refl => exact h1
  | tail hr he ih => rw [← Nat.add_assoc]; exact Reach.tail ih he

/-- The cost-annotated successor of a path: the hypotheses of the claims speak
of "the 4-element heading set"; every rotation keeps a cardinal heading
cardinal. -/
theorem cardinals_closed_mul :
    ∀ d ∈ cardinals, d.mul RotateLeft ∈ cardinals ∧ d.mul RotateRight ∈ cardinals := by
  decide

theorem edgeG_dir_cardinal {mz : Maze} {s t : SState} {e : Nat}
    (h : edgeG mz s t e) (hs : s.dir ∈ cardinals) : t.dir ∈ cardinals := by
  rcases h.2 with ⟨rfl, _⟩ | ⟨rfl, _⟩ | ⟨rfl, _⟩
  · exact hs
  · exact (cardinals_closed_mul s.dir hs).1
  · exact (cardinals_closed_mul s.dir hs).2

theorem reach_dir_cardinal {mz : Maze} {s t : SState} {c : Nat}
    (h : Reach mz s t c) (hs : s.dir ∈ cardinals) : t.dir ∈ cardinals := by
  induction h with
  | refl => exact hs
  | tail hr he ih => exact edgeG_dir_cardinal he ih

/-! ### The cost kernel

Both searches are, after dropping the data irrelevant to the cost (trails,
the memoised heuristic field), the same loop over `(state, g)` nodes with a
priority `g + hf state`: `hf = distance_to_end` for `find_astar` and `hf = 0`
for `find_djikstra`.  The kernel carries the closing cost of each state as
ghost data, to state the invariant; the projections to the two code-level
configurations forget it. -/

/-- A kernel node: the cost-relevant projection of both node dataclasses. -/
structure KNode where
  st : SState
  g : Nat
deriving DecidableEq, Repr

/-- Kernel priority: accumulated cost plus heuristic of the state. -/
def prioK (hf : SState → Nat) (n : KNode) : Nat := n.g + hf n.st

/-- Kernel successors: empty when the *current* tile is a wall (as in the
source), otherwise forward / rotate-left / rotate-right. -/
def succK (mz : Maze) (m : KNode) : List KNode :=
  if mz.tileAt m.st.pt = Tile.wall then []
  else [⟨⟨m.st.dir, m.st.pt.add m.st.dir⟩, m.g + COST_FORWARD⟩,
        ⟨⟨m.st.dir.mul RotateLeft, m.st.pt⟩, m.g + COST_ROTATE⟩,
        ⟨⟨m.st.dir.mul RotateRight, m.st.pt⟩, m.g + COST_ROTATE⟩]

/-- Membership in the ghost closed list, by state. -/
def closedHasK (l : List (SState × Nat)) (s : SState) : Bool :=
  l.any (fun q => q.1 == s)

/-- Kernel configuration. -/
structure CfgK where
  openq : List KNode
  closedl : List (SState × Nat)
deriving DecidableEq, Repr

/-- Kernel loop step outcome. -/
inductive StepK where
  | next : CfgK → StepK
  | found : Nat → StepK
  | fail : StepK
deriving DecidableEq, Repr

/-- One kernel iteration (same clause order as both searches). -/
def stepK (mz : Maze) (hf : SState → Nat) (cfg : CfgK) : StepK :=
  match popMinBy (prioK hf) cfg.openq with
  | none => .fail
  | some (m, rest) =>
      if m.st.pt = mz.endp then .found m.g
      else if closedHasK cfg.closedl m.st then .next ⟨rest, cfg.closedl⟩
      else .next ⟨rest ++ succK mz m, cfg.closedl ++ [(m.st, m.g)]⟩

/-- Kernel outcome. -/
inductive KRes where
  | found : Nat → KRes
  | noRoute : KRes
deriving DecidableEq, Repr

/-- The fuel-indexed kernel loop. -/
def runK (mz : Maze) (hf : SState → Nat) : CfgK → Nat → Option KRes
  | _, 0 => none
  | cfg, fuel + 1 =>
      match stepK mz hf cfg with
      | .found c => some (.found c)
      | .fail => some .noRoute
      | .next cfg' => runK mz hf cfg' fuel

theorem closedHasK_true_iff {l : List (SState × Nat)} {s : SState} :
    closedHasK l s = true ↔ ∃ g, (s, g) ∈ l := by
  simp only [closedHasK, List.any_eq_true, beq_iff_eq]
  constructor
  · rintro ⟨⟨s', g⟩, hmem, rfl⟩
    exact ⟨g, hmem⟩
  · rintro ⟨g, hmem⟩
    exact ⟨(s, g), hmem, rfl⟩

theorem closedHasK_append_single (l : List (SState × Nat)) (s t : SState) (g : Nat) :
    closedHasK (l ++ [(t, g)]) s = (closedHasK l s || (t == s)) := by
  simp [closedHasK]

theorem succK_edge {mz : Maze} {m : KNode} :
    ∀ n ∈ succK mz m, ∃ e, edgeG mz m.st n.st e ∧ n.g = m.g + e := by
  intro n hn
  unfold succK at hn
  split at hn
  case isTrue => simp at hn
  case isFalse hw =>
    simp only [List.mem_cons, List.not_mem_nil, or_false] at hn
    rcases hn with rfl | rfl | rfl
    · exact ⟨COST_FORWARD, ⟨hw, Or.inl ⟨rfl, rfl⟩⟩, rfl⟩
    · exact ⟨COST_ROTATE, ⟨hw, Or.inr (Or.inl ⟨rfl, rfl⟩)⟩, rfl⟩
    · exact ⟨COST_ROTATE, ⟨hw, Or.inr (Or.inr ⟨rfl, rfl⟩)⟩, rfl⟩

theorem edge_succK {mz : Maze} {m : KNode} {t : SState} {e : Nat}
    (h : edgeG mz m.st t e) : (⟨t, m.g + e⟩ : KNode) ∈ succK mz m := by
  unfold succK
  split
  case isTrue hw => exact absurd hw h.1
  case isFalse =>
    rcases h.2 with ⟨rfl, rfl⟩ | ⟨rfl, rfl⟩ | ⟨rfl, rfl⟩ <;> simp

/-- The optimal end cost: reachable, and a lower bound of every cost at which
some state located at the end point is reachable. -/
def IsMinEnd (mz : Maze) (s0 : SState) (c : Nat) : Prop :=
  (∃ t, t.pt = mz.endp ∧ Reach mz s0 t c) ∧
    ∀ t c', t.pt = mz.endp → Reach mz s0 t c' → c ≤ c'

theorem isMinEnd_unique {mz : Maze} {s0 : SState} {c c' : Nat}
    (h : IsMinEnd mz s0 c) (h' : IsMinEnd mz s0 c') : c = c' := by
  obtain ⟨⟨t, ht, hr⟩, hmin⟩ := h
  obtain ⟨⟨t', ht', hr'⟩, hmin'⟩ := h'
  exact Nat.le_antisymm (hmin t' c' ht' hr') (hmin' t c ht hr)

/-- The kernel loop invariant: soundness of open nodes, optimality of closing
costs, relaxedness of closed states' out-edges, covering of every path by an
unclosed open node, and the fact that no state at the end point ever closes. -/
structure InvK (mz : Maze) (s0 : SState) (cfg : CfgK) : Prop where
  i1 : ∀ n ∈ cfg.openq, Reach mz s0 n.st n.g
  i3 : ∀ p ∈ cfg.closedl, ∀ c, Reach mz s0 p.1 c → p.2 ≤ c
  i5 : ∀ p ∈ cfg.closedl, ∀ t e, edgeG mz p.1 t e →
        closedHasK cfg.closedl t = true ∨
          ∃ n ∈ cfg.openq, n.st = t ∧ n.g ≤ p.2 + e
  i4 : ∀ t c, Reach mz s0 t c → closedHasK cfg.closedl t = false →
        ∃ n ∈ cfg.openq, closedHasK cfg.closedl n.st = false ∧
          ∃ d, Reach mz n.st t d ∧ n.g + d ≤ c
  i8 : ∀ p ∈ cfg.closedl, p.1.pt ≠ mz.endp

/-- The invariant holds of the one-node initial configuration. -/
theorem invK_init (mz : Maze) (s0 : SState) :
    InvK mz s0 ⟨[⟨s0, 0⟩], []⟩ := by
  refine ⟨?_, ?_, ?_, ?_, ?_⟩
  · intro n hn
    simp only [List.mem_singleton] at hn
    subst hn
    exact Reach.refl
  · intro p hp; simp at hp
  · intro p hp; simp at hp
  · intro t c hr _
    refine ⟨⟨s0, 0⟩, by simp, by simp [closedHasK], c, hr, by simp⟩
  · intro p hp; simp at hp

/-- Preservation of the kernel invariant by one `.next` step.  The hypothesis
`htel` is the telescoped consistency of the heuristic along any path starting
at a state reachable from `s0`. -/
theorem invK_step {mz : Maze} {s0 : SState} {hf : SState → Nat}
    (htel : ∀ s t c d, Reach mz s0 s c → Reach mz s t d → hf s ≤ d + hf t)
    {cfg cfg' : CfgK} (inv : InvK mz s0 cfg)
    (hstep : stepK mz hf cfg = .next cfg') : InvK mz s0 cfg' := by
  unfold stepK at hstep
  cases hpop : popMinBy (prioK hf) cfg.openq with
  | none => rw [hpop] at hstep; simp at hstep
  | some pr =>
      obtain ⟨m, rest⟩ := pr
      rw [hpop] at hstep
      dsimp at hstep
      have hmem : m ∈ cfg.openq := popMinBy_mem hpop
      have hmin : ∀ x ∈ cfg.openq, prioK hf m ≤ prioK hf x := popMinBy_min _ hpop
      have hmemiff : ∀ x, x ∈ cfg.openq ↔ x = m ∨ x ∈ rest := popMinBy_mem_iff hpop
      split at hstep
      case isTrue => simp at hstep
      case isFalse hnend =>
        split at hstep
        case isTrue hcl =>
          injection hstep with hstep'
          subst hstep'
          refine ⟨?_, inv.i3, ?_, ?_, inv.i8⟩
          · intro n hn
            exact inv.i1 n ((hmemiff n).mpr (Or.inr hn))
          · intro p hp t e he
            rcases inv.i5 p hp t e he with hL | ⟨n, hn, hst, hg⟩
            · exact Or.inl hL
            · rcases (hmemiff n).mp hn with rfl | hn'
              · left; rw [← hst]; exact hcl
              · exact Or.inr ⟨n, hn', hst, hg⟩
          · intro t c hr hclt
            obtain ⟨n, hn, hnf, d, hnd, hle⟩ := inv.i4 t c hr hclt
            rcases (hmemiff n).mp hn with rfl | hn'
            · rw [hnf] at hcl; exact absurd hcl (by simp)
            · exact ⟨n, hn', hnf, d, hnd, hle⟩
        case isFalse hcl =>
          injection hstep with hstep'
          subst hstep'
          have hclf : closedHasK cfg.closedl m.st = false :=
            Bool.not_eq_true _ ▸ Bool.of_not_eq_true hcl
          -- optimality of the freshly closed cost
          have hi3new : ∀ c, Reach mz s0 m.st c → m.g ≤ c := by
            intro c hr
            obtain ⟨n, hn, hnf, d, hnd, hle⟩ := inv.i4 m.st c hr hclf
            have h1 := hmin n hn
            have h2 := htel n.st m.st n.g d (inv.i1 n hn) hnd
            unfold prioK at h1
            omega
          have hi3 : ∀ p ∈ cfg.closedl ++ [(m.st, m.g)], ∀ c,
              Reach mz s0 p.1 c → p.2 ≤ c := by
            intro p hp c hr
            rcases List.mem_append.mp hp with hp' | hp'
            · exact inv.i3 p hp' c hr
            · simp only [List.mem_singleton] at hp'
              subst hp'
              exact hi3new c hr
          have hi5 : ∀ p ∈ cfg.closedl ++ [(m.st, m.g)], ∀ t e, edgeG mz p.1 t e →
              closedHasK (cfg.closedl ++ [(m.st, m.g)]) t = true ∨
                ∃ n ∈ rest ++ succK mz m, n.st = t ∧ n.g ≤ p.2 + e := by
            intro p hp t e he
            rcases List.mem_append.mp hp with hp' | hp'
            · rcases inv.i5 p hp' t e he with hL | ⟨n, hn, hst, hg⟩
              · left; rw [closedHasK_append_single]; rw [hL]; rfl
              · rcases (hmemiff n).mp hn with rfl | hn'
                · left
                  rw [closedHasK_append_single, ← hst]
                  simp
                · exact Or.inr ⟨n, List.mem_append_left _ hn', hst, hg⟩
            · simp only [List.mem_singleton] at hp'
              subst hp'
              right
              exact ⟨⟨t, m.g + e⟩, List.mem_append_right _ (edge_succK he), rfl,
                le_refl _⟩
          have hi1 : ∀ n ∈ rest ++ succK mz m, Reach mz s0 n.st n.g := by
            intro n hn
            rcases List.mem_append.mp hn with hn' | hn'
            · exact inv.i1 n ((hmemiff n).mpr (Or.inr hn'))
            · obtain ⟨e, he, hg⟩ := succK_edge n hn'
              rw [hg]
              exact Reach.tail (inv.i1 m hmem) he
          have hi8 : ∀ p ∈ cfg.closedl ++ [(m.st, m.g)], p.1.pt ≠ mz.endp := by
            intro p hp
            rcases List.mem_append.mp hp with hp' | hp'
            · exact inv.i8 p hp'
            · simp only [List.mem_singleton] at hp'
              subst hp'
              exact hnend
          refine ⟨hi1, hi3, hi5, ?_, hi8⟩
          intro t c hr
          induction hr with
          | refl =>
              intro hclt
              have hclt0 : closedHasK cfg.closedl s0 = false := by
                rw [closedHasK_append_single] at hclt
                exact (Bool.or_eq_false_iff.mp hclt).1
              obtain ⟨n, hn, hnf, d, hnd, hle⟩ := inv.i4 s0 0 Reach.refl hclt0
              have hd0 : d = 0 := by omega
              subst hd0
              have hns : n.st = s0 := reach_zero hnd
              have hnm : n ≠ m := by
                intro heq
                subst heq
                rw [hns] at hclt
                rw [closedHasK_append_single] at hclt
                simp at hclt
              refine ⟨n, ?_, ?_, 0, ?_, ?_⟩
              · rcases (hmemiff n).mp hn with rfl | hn'
                · exact absurd rfl hnm
                · exact List.mem_append_left _ hn'
              · rw [hns]; exact hclt
              · rw [hns]; exact Reach.refl
              · omega
          | tail hr' he ih =>
              intro hclt
              rename_i t' u c' e
              by_cases hct' : closedHasK (cfg.closedl ++ [(m.st, m.g)]) t' = true
              · obtain ⟨gs, hgs⟩ := closedHasK_true_iff.mp hct'
                have hgsle : gs ≤ c' := hi3 (t', gs) hgs c' hr'
                rcases hi5 (t', gs) hgs u e he with hL | ⟨n, hn, hst, hg⟩
                · rw [hclt] at hL; exact absurd hL (by simp)
                · refine ⟨n, hn, ?_, 0, ?_, ?_⟩
                  · rw [hst]; exact hclt
                  · rw [hst]; exact Reach.refl
                  · simp only at hg ⊢
                    omega
              · have hct'' : closedHasK (cfg.closedl ++ [(m.st, m.g)]) t' = false :=
                  Bool.not_eq_true _ ▸ Bool.of_not_eq_true hct'
                obtain ⟨n, hn, hnf, d, hnd, hle⟩ := ih hct''
                exact ⟨n, hn, hnf, d + e, Reach.tail hnd he, by omega⟩

/-- When the kernel pops a node at the end point, its accumulated cost is the
optimal end cost, provided the heuristic vanishes at the end and satisfies the
telescoped consistency property. -/
theorem stepK_found_min {mz : Maze} {s0 : SState} {hf : SState → Nat}
    (htel : ∀ s t c d, Reach mz s0 s c → Reach mz s t d → hf s ≤ d + hf t)
    (hend : ∀ s, s.pt = mz.endp → hf s = 0)
    {cfg : CfgK} {c : Nat} (inv : InvK mz s0 cfg)
    (hstep : stepK mz hf cfg = .found c) : IsMinEnd mz s0 c := by
  unfold stepK at hstep
  cases hpop : popMinBy (prioK hf) cfg.openq with
  | none => rw [hpop] at hstep; simp at hstep
  | some pr =>
      obtain ⟨m, rest⟩ := pr
      rw [hpop] at hstep
      dsimp at hstep
      split at hstep
      case isTrue hmend =>
        injection hstep with hc
        subst hc
        have hmem : m ∈ cfg.openq := popMinBy_mem hpop
        have hmin : ∀ x ∈ cfg.openq, prioK hf m ≤ prioK hf x := popMinBy_min _ hpop
        constructor
        · exact ⟨m.st, hmend, inv.i1 m hmem⟩
        · intro t c' ht hr
          have hclt : closedHasK cfg.closedl t = false := by
            cases hcc : closedHasK cfg.closedl t with
            | false => rfl
            | true =>
                obtain ⟨g, hg⟩ := closedHasK_true_iff.mp hcc
                exact absurd ht (inv.i8 (t, g) hg)
          obtain ⟨n, hn, hnf, d, hnd, hle⟩ := inv.i4 t c' hr hclt
          have h1 := hmin n hn
          have h2 := htel n.st t n.g d (inv.i1 n hn) hnd
          have h3 := hend t ht
          have h4 := hend m.st hmend
          unfold prioK at h1
          omega
      case isFalse => split at hstep <;> simp at hstep

/-- If the kernel run returns a cost, that cost is the optimal end cost. -/
theorem runK_min {mz : Maze} {s0 : SState} {hf : SState → Nat}
    (htel : ∀ s t c d, Reach mz s0 s c → Reach mz s t d → hf s ≤ d + hf t)
    (hend : ∀ s, s.pt = mz.endp → hf s = 0) :
    ∀ (fuel : Nat) (cfg : CfgK) (c : Nat), InvK mz s0 cfg →
      runK mz hf cfg fuel = some (.found c) → IsMinEnd mz s0 c := by
  intro fuel
  induction fuel with
  | zero => intro cfg c _ h; simp [runK] at h
  | succ fu ih =>
      intro cfg c inv h
      rw [runK] at h
      cases hs : stepK mz hf cfg with
      | found c' =>
          rw [hs] at h
          simp only [Option.some.injEq, KRes.found.injEq] at h
          subst h
          exact stepK_found_min htel hend inv hs
      | fail => rw [hs] at h; simp at h
      | next cfg' =>
          rw [hs] at h
          exact ih cfg' c (invK_step htel inv hs) h

/-! ### Simulation: `find_astar` refines the kernel with the Manhattan heuristic -/

/-- Cost projection of an A* node. -/
def projA (n : NodeAStar) : KNode := ⟨⟨n.direction, n.point⟩, n.g⟩

/-- The heuristic of `find_astar`, as a function of the state. -/
def hfA (mz : Maze) : SState → Nat := fun s => distance_to_end mz s.pt

/-- The simulation relation between a `find_astar` configuration and a kernel
configuration: same queue up to projection, same closed states, and every open
node's memoised `h` field is the Manhattan distance of its point. -/
def RelA (mz : Maze) (cfgA : CfgA) (cfgK : CfgK) : Prop :=
  cfgK.openq = cfgA.openq.map projA ∧
  cfgK.closedl.map Prod.fst = cfgA.closedl ∧
  ∀ n ∈ cfgA.openq, n.h = distance_to_end mz n.point

theorem closedHasK_map_fst {l : List (SState × Nat)} {s : SState} :
    closedHasK l s = true ↔ s ∈ l.map Prod.fst := by
  simp [closedHasK, List.any_eq_true, List.mem_map, beq_iff_eq]

theorem stepA_simK {mz : Maze} {cfgA : CfgA} {cfgK : CfgK} (hrel : RelA mz cfgA cfgK) :
    (stepA mz cfgA = .fail ∧ stepK mz (hfA mz) cfgK = .fail) ∨
    (∃ c t, stepA mz cfgA = .found c t ∧ stepK mz (hfA mz) cfgK = .found c) ∨
    (∃ cfgA' cfgK', stepA mz cfgA = .next cfgA' ∧
      stepK mz (hfA mz) cfgK = .next cfgK' ∧ RelA mz cfgA' cfgK') := by
  obtain ⟨hopen, hclosed, hh⟩ := hrel
  have hprio : ∀ n ∈ cfgA.openq, prioK (hfA mz) (projA n) = NodeAStar.f n := by
    intro n hn
    simp only [prioK, projA, hfA, NodeAStar.f, hh n hn]
  have hmap := popMinBy_map NodeAStar.f (prioK (hfA mz)) projA cfgA.openq hprio
  cases hpop : popMinBy NodeAStar.f cfgA.openq with
  | none =>
      left
      constructor
      · unfold stepA; rw [hpop]
      · unfold stepK; rw [hopen, hmap, hpop]; rfl
  | some pr =>
      obtain ⟨cur, rest⟩ := pr
      have hpopK : popMinBy (prioK (hfA mz)) cfgK.openq =
          some (projA cur, rest.map projA) := by
        rw [hopen, hmap, hpop]; rfl
      have hrest : ∀ n ∈ rest, n ∈ cfgA.openq := by
        intro n hn
        exact (popMinBy_mem_iff hpop n).mpr (Or.inr hn)
      by_cases hend : cur.point = mz.endp
      · right; left
        refine ⟨cur.g, cur.trail, ?_, ?_⟩
        · unfold stepA; rw [hpop]; simp [hend]
        · unfold stepK; rw [hpopK]; simp [projA, hend]
      · by_cases hcl : (⟨cur.direction, cur.point⟩ : SState) ∈ cfgA.closedl
        · right; right
          have hclK : closedHasK cfgK.closedl ⟨cur.direction, cur.point⟩ = true := by
            rw [closedHasK_map_fst, hclosed]; exact hcl
          refine ⟨⟨rest, cfgA.closedl⟩, ⟨rest.map projA, cfgK.closedl⟩, ?_, ?_, ?_, ?_, ?_⟩
          · unfold stepA; rw [hpop]; simp [hend, hcl]
          · unfold stepK; rw [hpopK]; simp [projA, hend, hclK]
          · rfl
          · exact hclosed
          · intro n hn; exact hh n (hrest n hn)
        · right; right
          have hclK : closedHasK cfgK.closedl ⟨cur.direction, cur.point⟩ = false := by
            cases hb : closedHasK cfgK.closedl ⟨cur.direction, cur.point⟩ with
            | false => rfl
            | true =>
                rw [closedHasK_map_fst, hclosed] at hb
                exact absurd hb hcl
          by_cases hwall : mz.tileAt cur.point = Tile.wall
          · refine ⟨⟨rest, cfgA.closedl ++ [⟨cur.direction, cur.point⟩]⟩,
              ⟨rest.map projA ++ succK mz (projA cur),
                cfgK.closedl ++ [(⟨cur.direction, cur.point⟩, cur.g)]⟩, ?_, ?_, ?_, ?_, ?_⟩
            · unfold stepA; rw [hpop]; simp [hend, hcl, hwall]
            · unfold stepK; rw [hpopK]
              simp only [projA]
              rw [if_neg hend, if_neg (by rw [hclK]; simp)]
            · dsimp
              rw [succK]
              simp [projA, hwall]
            · simp [hclosed]
            · intro n hn; exact hh n (hrest n hn)
          · refine ⟨⟨rest ++ [fwdA mz cur, rotLA cur, rotRA cur],
              cfgA.closedl ++ [⟨cur.direction, cur.point⟩]⟩,
              ⟨rest.map projA ++ succK mz (projA cur),
                cfgK.closedl ++ [(⟨cur.direction, cur.point⟩, cur.g)]⟩, ?_, ?_, ?_, ?_, ?_⟩
            · unfold stepA; rw [hpop]; simp [hend, hcl, hwall]
            · unfold stepK; rw [hpopK]
              simp only [projA]
              rw [if_neg hend, if_neg (by rw [hclK]; simp)]
            · dsimp
              rw [succK]
              simp [projA, hwall, fwdA, rotLA, rotRA]
            · simp [hclosed]
            · intro n hn
              rcases List.mem_append.mp hn with hn' | hn'
              · exact hh n (hrest n hn')
              · have hcur := hh cur (popMinBy_mem hpop)
                simp only [List.mem_cons, List.not_mem_nil, or_false] at hn'
                rcases hn' with rfl | rfl | rfl
                · rfl
                · exact hcur
                · exact hcur

/-- Run-level simulation: a successful `find_astar` run yields a successful
kernel run with the same cost. -/
theorem runA_simK {mz : Maze} :
    ∀ (fuel : Nat) (cfgA : CfgA) (cfgK : CfgK), RelA mz cfgA cfgK →
      ∀ (c : Nat) (t : List Point), runAstar mz cfgA fuel = some (.found c t) →
        runK mz (hfA mz) cfgK fuel = some (.found c) := by
  intro fuel
  induction fuel with
  | zero => intro _ _ _ c t h; simp [runAstar] at h
  | succ fu ih =>
      intro cfgA cfgK hrel c t h
      rw [runAstar] at h
      rw [runK]
      rcases stepA_simK hrel with ⟨hA, hK⟩ | ⟨c', t', hA, hK⟩ |
        ⟨cfgA', cfgK', hA, hK, hrel'⟩
      · rw [hA] at h; simp at h
      · rw [hA] at h
        rw [hK]
        simp only [Option.some.injEq, ARes.found.injEq] at h
        obtain ⟨rfl, rfl⟩ := h
        rfl
      · rw [hA] at h
        rw [hK]
        exact ih cfgA' cfgK' hrel' c t h

/-- The kernel configuration corresponding to the initial configurations of
both searches. -/
def initK (s : Point) (d : Direction) : CfgK := ⟨[⟨⟨d, s⟩, 0⟩], []⟩

theorem relA_init (mz : Maze) (s : Point) (d : Direction) :
    RelA mz (initA mz s d) (initK s d) := by
  refine ⟨rfl, rfl, ?_⟩
  intro n hn
  simp only [initA, List.mem_singleton] at hn
  subst hn
  rfl

/-! ### Consistency of the Manhattan heuristic on cardinal headings -/

theorem mdist_tel {mz : Maze} {s t : SState} {d : Nat}
    (h : Reach mz s t d) (hs : s.dir ∈ cardinals) :
    distance_to_end mz s.pt ≤ d + distance_to_end mz t.pt := by
  induction h with
  | refl => simp
  | tail hr he ih =>
      rename_i t' u c e
      have ht' : t'.dir ∈ cardinals := reach_dir_cardinal hr hs
      have hstep : distance_to_end mz t'.pt ≤ e + distance_to_end mz u.pt := by
        rcases he.2 with ⟨rfl, rfl⟩ | ⟨rfl, rfl⟩ | ⟨rfl, rfl⟩
        · simp only [cardinals, List.mem_cons, List.not_mem_nil, or_false] at ht'
          rcases ht' with hdir | hdir | hdir | hdir <;>
            · simp only [distance_to_end, Point.add, COST_FORWARD, hdir]
              omega
        · simp only [distance_to_end, COST_ROTATE]
          omega
        · simp only [distance_to_end, COST_ROTATE]
          omega
      omega

theorem hfA_tel {mz : Maze} {s0 : SState} (hd : s0.dir ∈ cardinals) :
    ∀ s t c d, Reach mz s0 s c → Reach mz s t d →
      hfA mz s ≤ d + hfA mz t := by
  intro s t c d h1 h2
  exact mdist_tel h2 (reach_dir_cardinal h1 hd)

theorem hfA_end (mz : Maze) : ∀ s : SState, s.pt = mz.endp → hfA mz s = 0 := by
  intro s hs
  simp [hfA, distance_to_end, hs]

/-- If `find_astar` returns a cost from a cardinal start heading, that cost is
the optimal end cost of the search graph. -/
theorem find_astar_min {mz : Maze} {reindeer : Point} {d : Direction} {fuel c : Nat}
    {t : List Point} (hd : d ∈ cardinals)
    (h : find_astar mz reindeer d fuel = some (.found c t)) :
    IsMinEnd mz ⟨d, reindeer⟩ c := by
  have hK := runA_simK fuel (initA mz reindeer d) (initK reindeer d)
    (relA_init mz reindeer d) c t h
  exact runK_min (hfA_tel hd) (hfA_end mz) fuel (initK reindeer d) c
    (invK_init mz ⟨d, reindeer⟩) hK

/-! ### Simulation: `find_djikstra` refines the kernel with the zero heuristic -/

/-- Cost projection of a Dijkstra node. -/
def projD (n : NodeD) : KNode := ⟨⟨n.direction, n.point⟩, n.cost⟩

/-- The heuristic of `find_djikstra`: none. -/
def hf0 : SState → Nat := fun _ => 0

/-- Simulation relation between a `find_djikstra` configuration and a kernel
configuration (the trails dict has no kernel counterpart). -/
def RelD (cfgD : CfgD) (cfgK : CfgK) : Prop :=
  cfgK.openq = cfgD.openq.map projD ∧
  cfgK.closedl.map Prod.fst = cfgD.closedl

theorem stepD_simK {mz : Maze} {cfgD : CfgD} {cfgK : CfgK} (hrel : RelD cfgD cfgK) :
    (stepD mz cfgD = .fail ∧ stepK mz hf0 cfgK = .fail) ∨
    (∃ c s, stepD mz cfgD = .found c s ∧ stepK mz hf0 cfgK = .found c) ∨
    (∃ cfgD' cfgK', stepD mz cfgD = .next cfgD' ∧
      stepK mz hf0 cfgK = .next cfgK' ∧ RelD cfgD' cfgK') ∨
    (stepD mz cfgD = .keyError) := by
  obtain ⟨hopen, hclosed⟩ := hrel
  have hprio : ∀ n ∈ cfgD.openq, prioK hf0 (projD n) = NodeD.cost n := by
    intro n _
    simp [prioK, projD, hf0]
  have hmap := popMinBy_map NodeD.cost (prioK hf0) projD cfgD.openq hprio
  cases hpop : popMinBy NodeD.cost cfgD.openq with
  | none =>
      left
      constructor
      · unfold stepD; rw [hpop]
      · unfold stepK; rw [hopen, hmap, hpop]; rfl
  | some pr =>
      obtain ⟨cur, rest⟩ := pr
      have hpopK : popMinBy (prioK hf0) cfgK.openq =
          some (projD cur, rest.map projD) := by
        rw [hopen, hmap, hpop]; rfl
      by_cases hend : cur.point = mz.endp
      · cases hlk : alLookup cfgD.trails (cur.point, cur.cost) with
        | some s =>
            right; left
            refine ⟨cur.cost, s, ?_, ?_⟩
            · unfold stepD; rw [hpop]; dsimp; rw [if_pos hend, hlk]
            · unfold stepK; rw [hpopK]; simp [projD, hend]
        | none =>
            right; right; right
            unfold stepD; rw [hpop]; dsimp; rw [if_pos hend, hlk]
      · by_cases hcl : (⟨cur.direction, cur.point⟩ : SState) ∈ cfgD.closedl
        · right; right; left
          have hclK : closedHasK cfgK.closedl ⟨cur.direction, cur.point⟩ = true := by
            rw [closedHasK_map_fst, hclosed]; exact hcl
          refine ⟨⟨rest, cfgD.closedl, cfgD.trails⟩,
            ⟨rest.map projD, cfgK.closedl⟩, ?_, ?_, rfl, hclosed⟩
          · unfold stepD; rw [hpop]; simp [hend, hcl]
          · unfold stepK; rw [hpopK]; simp [projD, hend, hclK]
        · have hclK : closedHasK cfgK.closedl ⟨cur.direction, cur.point⟩ = false := by
            cases hb : closedHasK cfgK.closedl ⟨cur.direction, cur.point⟩ with
            | false => rfl
            | true =>
                rw [closedHasK_map_fst, hclosed] at hb
                exact absurd hb hcl
          by_cases hwall : mz.tileAt cur.point = Tile.wall
          · right; right; left
            refine ⟨⟨rest, cfgD.closedl ++ [⟨cur.direction, cur.point⟩], cfgD.trails⟩,
              ⟨rest.map projD ++ succK mz (projD cur),
                cfgK.closedl ++ [(⟨cur.direction, cur.point⟩, cur.cost)]⟩, ?_, ?_, ?_, ?_⟩
            · unfold stepD; rw [hpop]; simp [hend, hcl, hwall]
            · unfold stepK; rw [hpopK]
              simp only [projD]
              rw [if_neg hend, if_neg (by rw [hclK]; simp)]
            · dsimp
              rw [succK]
              simp [projD, hwall]
            · simp [hclosed]
          · cases hrx : relaxAll (cur.point, cur.cost) cfgD.trails (succD cur) with
            | none =>
                right; right; right
                unfold stepD; rw [hpop]; simp [hend, hcl, hwall, hrx]
            | some tr' =>
                right; right; left
                refine ⟨⟨rest ++ succD cur, cfgD.closedl ++ [⟨cur.direction, cur.point⟩], tr'⟩,
                  ⟨rest.map projD ++ succK mz (projD cur),
                    cfgK.closedl ++ [(⟨cur.direction, cur.point⟩, cur.cost)]⟩, ?_, ?_, ?_, ?_⟩
                · unfold stepD; rw [hpop]; simp [hend, hcl, hwall, hrx]
                · unfold stepK; rw [hpopK]
                  simp only [projD]
                  rw [if_neg hend, if_neg (by rw [hclK]; simp)]
                · dsimp
                  rw [succK]
                  simp [projD, hwall, succD]
                · simp [hclosed]

/-- Run-level simulation for `find_djikstra`. -/
theorem runD_simK {mz : Maze} :
    ∀ (fuel : Nat) (cfgD : CfgD) (cfgK : CfgK), RelD cfgD cfgK →
      ∀ (c : Nat) (s : List Point), runD mz cfgD fuel = some (.found c s) →
        runK mz hf0 cfgK fuel = some (.found c) := by
  intro fuel
  induction fuel with
  | zero => intro _ _ _ c s h; simp [runD] at h
  | succ fu ih =>
      intro cfgD cfgK hrel c s h
      rw [runD] at h
      rw [runK]
      rcases @stepD_simK mz _ _ hrel with ⟨hD, hK⟩ | ⟨c', s', hD, hK⟩ |
        ⟨cfgD', cfgK', hD, hK, hrel'⟩ | hD
      · rw [hD] at h; simp at h
      · rw [hD] at h
        rw [hK]
        simp only [Option.some.injEq, DRes.found.injEq] at h
        obtain ⟨rfl, rfl⟩ := h
        rfl
      · rw [hD] at h
        rw [hK]
        exact ih cfgD' cfgK' hrel' c s h
      · rw [hD] at h; simp at h

theorem relD_init (mz : Maze) (s : Point) (d : Direction) :
    RelD (initD mz s d) (initK s d) :=
  ⟨rfl, rfl⟩

/-- If `find_djikstra` returns a cost, that cost is the optimal end cost of the
search graph (no assumption on the start heading is needed: the heuristic is
zero). -/
theorem find_djikstra_min {mz : Maze} {reindeer : Point} {d : Direction}
    {fuel c : Nat} {s : List Point}
    (h : find_djikstra mz reindeer d fuel = some (.found c s)) :
    IsMinEnd mz ⟨d, reindeer⟩ c := by
  have hK := runD_simK fuel (initD mz reindeer d) (initK reindeer d)
    (relD_init mz reindeer d) c s h
  exact runK_min (fun s t c d _ _ => by simp [hf0]) (fun _ _ => rfl)
    fuel (initK reindeer d) c (invK_init mz ⟨d, reindeer⟩) hK

/-! ### Claim C3: the two searches agree on the optimal cost -/

/-- **C3.** For every maze, start cell and cardinal start heading on which both
searches return, `find_astar` and `find_djikstra` return the same cost: both
equal the optimal end cost of the search graph.  (The spec's data model defines
a heading as one of the four cardinal unit vectors.) -/
theorem c3_astar_djikstra_cost_agree {mz : Maze} {reindeer : Point}
    {d : Direction} {fuelA fuelD cA cD : Nat} {t s : List Point}
    (hd : d ∈ cardinals)
    (hA : find_astar mz reindeer d fuelA = some (.found cA t))
    (hD : find_djikstra mz reindeer d fuelD = some (.found cD s)) :
    cA = cD :=
  isMinEnd_unique (find_astar_min hd hA) (find_djikstra_min hD)

/-- Witness for C3 at a concrete input: the trivial one-cell maze whose start
is its end, explored facing east, gives cost 0 from both searches. -/
theorem c3_astar_djikstra_cost_agree_witness :
    (⟨1, 0⟩ : Direction) ∈ cardinals ∧
    find_astar ⟨⟨0, 0⟩, ⟨0, 0⟩, [], 1, 1⟩ ⟨0, 0⟩ ⟨1, 0⟩ 1 =
      some (.found 0 [⟨0, 0⟩]) ∧
    find_djikstra ⟨⟨0, 0⟩, ⟨0, 0⟩, [], 1, 1⟩ ⟨0, 0⟩ ⟨1, 0⟩ 1 =
      some (.found 0 [⟨0, 0⟩]) ∧
    (0 : Nat) = 0 := by
  refine ⟨by decide, by decide, by decide, ?_⟩
  exact @c3_astar_djikstra_cost_agree ⟨⟨0, 0⟩, ⟨0, 0⟩, [], 1, 1⟩ ⟨0, 0⟩ ⟨1, 0⟩
    1 1 0 0 [⟨0, 0⟩] [⟨0, 0⟩] (by decide) (by decide) (by decide)

/-! ### Set-as-list and association-list lemmas for the trails dict -/

theorem mem_setIns {s : List Point} {p q : Point} :
    q ∈ setIns s p ↔ q ∈ s ∨ q = p := by
  by_cases h : p ∈ s
  · simp only [setIns, if_pos h]
    constructor
    · exact Or.inl
    · rintro (hq | rfl)
      · exact hq
      · exact h
  · simp [setIns, if_neg h]

theorem mem_setUnion {b a : List Point} {q : Point} :
    q ∈ setUnion a b ↔ q ∈ a ∨ q ∈ b := by
  induction b generalizing a with
  | nil => simp [setUnion]
  | cons x xs ih =>
      show q ∈ List.foldl setIns (setIns a x) xs ↔ _
      rw [show List.foldl setIns (setIns a x) xs = setUnion (setIns a x) xs from rfl]
      rw [ih, mem_setIns, or_assoc]
      simp [List.mem_cons]

theorem alLookup_alUpdate_self {κ ν : Type} [DecidableEq κ]
    (l : List (κ × ν)) (k : κ) (v : ν) :
    alLookup (alUpdate l k v) k = some v := by
  induction l with
  | nil => simp [alUpdate, alLookup]
  | cons p rest ih =>
      obtain ⟨k', v'⟩ := p
      by_cases h : k' = k
      · subst h; simp [alUpdate, alLookup]
      · simp [alUpdate, alLookup, h, ih]

theorem alLookup_alUpdate_ne {κ ν : Type} [DecidableEq κ]
    (l : List (κ × ν)) (k k' : κ) (v : ν) (h : k' ≠ k) :
    alLookup (alUpdate l k v) k' = alLookup l k' := by
  have hne : ¬ k = k' := fun heq => h heq.symm
  induction l with
  | nil =>
      simp only [alUpdate, alLookup]
      rw [if_neg hne]
  | cons p rest ih =>
      obtain ⟨k'', v''⟩ := p
      by_cases hk : k'' = k
      · rw [hk]
        simp only [alUpdate, if_pos rfl]
        simp only [alLookup]
        rw [if_neg hne, if_neg hne]
      · simp only [alUpdate, if_neg hk, alLookup]
        by_cases hk2 : k'' = k'
        · rw [if_pos hk2, if_pos hk2]
        · rw [if_neg hk2, if_neg hk2]
          exact ih

/-! ### Properties of the trails-relaxation fold -/

theorem relaxOne_some {ck : Point × Nat} {tr : TrailsD} {nd : NodeD} {tr' : TrailsD}
    (h : relaxOne ck tr nd = some tr') :
    ∃ parent, alLookup tr ck = some parent ∧
      tr' = alUpdate tr (nd.point, nd.cost)
        (setIns (setUnion ((alLookup tr (nd.point, nd.cost)).getD []) parent)
          nd.point) := by
  unfold relaxOne at h
  cases hl : alLookup tr ck with
  | none => rw [hl] at h; simp at h
  | some parent =>
      rw [hl] at h
      simp only [Option.some.injEq] at h
      exact ⟨parent, rfl, h.symm⟩

theorem relaxOne_mono {ck : Point × Nat} {tr : TrailsD} {nd : NodeD} {tr' : TrailsD}
    (h : relaxOne ck tr nd = some tr') :
    ∀ k s, alLookup tr k = some s →
      ∃ s', alLookup tr' k = some s' ∧ ∀ q ∈ s, q ∈ s' := by
  obtain ⟨parent, hpar, rfl⟩ := relaxOne_some h
  intro k s hs
  by_cases hk : k = (nd.point, nd.cost)
  · subst hk
    refine ⟨_, alLookup_alUpdate_self _ _ _, ?_⟩
    intro q hq
    rw [mem_setIns, mem_setUnion]
    left; left
    rw [hs]
    exact hq
  · exact ⟨s, by rw [alLookup_alUpdate_ne _ _ _ _ hk]; exact hs, fun q hq => hq⟩

theorem relaxOne_isSome {ck : Point × Nat} {tr : TrailsD} {nd : NodeD} {tr' : TrailsD}
    (h : relaxOne ck tr nd = some tr') :
    ∀ k, (alLookup tr k).isSome → (alLookup tr' k).isSome := by
  intro k hk
  rw [Option.isSome_iff_exists] at hk
  obtain ⟨s, hs⟩ := hk
  obtain ⟨s', hs', _⟩ := relaxOne_mono h k s hs
  rw [hs']
  rfl

theorem relaxOne_new {ck : Point × Nat} {tr : TrailsD} {nd : NodeD} {tr' : TrailsD}
    {parent : List Point} (h : relaxOne ck tr nd = some tr')
    (hpar : alLookup tr ck = some parent) :
    ∃ s', alLookup tr' (nd.point, nd.cost) = some s' ∧ nd.point ∈ s' ∧
      (∀ q ∈ parent, q ∈ s') ∧
      ∀ q ∈ s', q = nd.point ∨ q ∈ parent ∨
        ∃ s₀, alLookup tr (nd.point, nd.cost) = some s₀ ∧ q ∈ s₀ := by
  obtain ⟨parent', hpar', rfl⟩ := relaxOne_some h
  rw [hpar] at hpar'
  injection hpar' with hpar'
  subst hpar'
  refine ⟨_, alLookup_alUpdate_self _ _ _, ?_, ?_, ?_⟩
  · rw [mem_setIns]
    right; rfl
  · intro q hq
    rw [mem_setIns, mem_setUnion]
    left; right
    exact hq
  · intro q hq
    rw [mem_setIns, mem_setUnion] at hq
    rcases hq with (hq | hq) | rfl
    · right; right
      cases hl : alLookup tr (nd.point, nd.cost) with
      | none => rw [hl] at hq; simp at hq
      | some s₀ => rw [hl] at hq; exact ⟨s₀, rfl, hq⟩
    · right; left; exact hq
    · left; rfl

theorem relaxAll_mono {ck : Point × Nat} :
    ∀ (nds : List NodeD) (tr tr' : TrailsD), relaxAll ck tr nds = some tr' →
      ∀ k s, alLookup tr k = some s →
        ∃ s', alLookup tr' k = some s' ∧ ∀ q ∈ s, q ∈ s' := by
  intro nds
  induction nds with
  | nil =>
      intro tr tr' h k s hs
      simp only [relaxAll, Option.some.injEq] at h
      subst h
      exact ⟨s, hs, fun q hq => hq⟩
  | cons nd nds ih =>
      intro tr tr' h k s hs
      simp only [relaxAll] at h
      cases h1 : relaxOne ck tr nd with
      | none => rw [h1] at h; simp at h
      | some tr1 =>
          rw [h1] at h
          obtain ⟨s1, hs1, hsub1⟩ := relaxOne_mono h1 k s hs
          obtain ⟨s', hs', hsub'⟩ := ih tr1 tr' h k s1 hs1
          exact ⟨s', hs', fun q hq => hsub' q (hsub1 q hq)⟩

theorem relaxAll_total {ck : Point × Nat} :
    ∀ (nds : List NodeD) (tr : TrailsD), (alLookup tr ck).isSome →
      ∃ tr', relaxAll ck tr nds = some tr' := by
  intro nds
  induction nds with
  | nil => intro tr _; exact ⟨tr, rfl⟩
  | cons nd nds ih =>
      intro tr hk
      rw [Option.isSome_iff_exists] at hk
      obtain ⟨parent, hpar⟩ := hk
      have h1 : relaxOne ck tr nd =
          some (alUpdate tr (nd.point, nd.cost)
            (setIns (setUnion ((alLookup tr (nd.point, nd.cost)).getD []) parent)
              nd.point)) := by
        unfold relaxOne
        rw [hpar]
      obtain ⟨tr', htr'⟩ :=
        ih _ (relaxOne_isSome h1 ck (by rw [hpar]; rfl))
      refine ⟨tr', ?_⟩
      simp only [relaxAll]
      rw [h1]
      exact htr'

theorem relaxAll_covers {ck : Point × Nat} :
    ∀ (nds : List NodeD) (tr tr' : TrailsD) (parent : List Point),
      relaxAll ck tr nds = some tr' →
      alLookup tr ck = some parent →
      (∀ nd ∈ nds, (nd.point, nd.cost) ≠ ck) →
      ∀ nd ∈ nds, ∃ s', alLookup tr' (nd.point, nd.cost) = some s' ∧
        nd.point ∈ s' ∧ ∀ q ∈ parent, q ∈ s' := by
  intro nds
  induction nds with
  | nil => intro tr tr' parent _ _ _ nd hnd; simp at hnd
  | cons nd0 nds ih =>
      intro tr tr' parent h hpar hne nd hnd
      simp only [relaxAll] at h
      cases h1 : relaxOne ck tr nd0 with
      | none => rw [h1] at h; simp at h
      | some tr1 =>
          rw [h1] at h
          rcases List.mem_cons.mp hnd with rfl | hnd'
          · obtain ⟨s1, hs1, hmem1, hsub1, _⟩ := relaxOne_new h1 hpar
            obtain ⟨s', hs', hsub'⟩ := relaxAll_mono nds tr1 tr' h _ s1 hs1
            exact ⟨s', hs', hsub' _ hmem1, fun q hq => hsub' q (hsub1 q hq)⟩
          · have hpar1 : alLookup tr1 ck = some parent := by
              obtain ⟨parent', hpar', rfl⟩ := relaxOne_some h1
              rw [alLookup_alUpdate_ne _ _ _ _
                (Ne.symm (hne nd0 (List.mem_cons_self _ _)))]
              exact hpar
            exact ih tr1 tr' parent h hpar1
              (fun x hx => hne x (List.mem_cons_of_mem _ hx)) nd hnd'

/-! ### Paths with their visited cells, and provenance of trails entries -/

/-- `ReachV mz s0 t c v`: a path from `s0` to `t` of cost `c` whose visited
cells, in order, are `v`. -/
inductive ReachV (mz : Maze) (s0 : SState) : SState → Nat → List Point → Prop where
  | refl : ReachV mz s0 s0 0 [s0.pt]
  | tail {t u : SState} {c e : Nat} {v : List Point} :
      ReachV mz s0 t c v → edgeG mz t u e → ReachV mz s0 u (c + e) (v ++ [u.pt])

theorem reachV_reach {mz : Maze} {s0 t : SState} {c : Nat} {v : List Point}
    (h : ReachV mz s0 t c v) : Reach mz s0 t c := by
  induction h with
  | refl => exact Reach.refl
  | tail hr he ih => exact Reach.tail ih he

theorem reach_reachV {mz : Maze} {s0 t : SState} {c : Nat}
    (h : Reach mz s0 t c) : ∃ v, ReachV mz s0 t c v := by
  induction h with
  | refl => exact ⟨[s0.pt], ReachV.refl⟩
  | tail hr he ih =>
      obtain ⟨v, hv⟩ := ih
      exact ⟨_, ReachV.tail hv he⟩

theorem reachV_start_mem {mz : Maze} {s0 t : SState} {c : Nat} {v : List Point}
    (h : ReachV mz s0 t c v) : s0.pt ∈ v := by
  induction h with
  | refl => simp
  | tail hr he ih => exact List.mem_append_left _ ih

theorem reachV_last_mem {mz : Maze} {s0 t : SState} {c : Nat} {v : List Point}
    (h : ReachV mz s0 t c v) : t.pt ∈ v := by
  cases h with
  | refl => simp
  | tail hr he => simp

/-- Provenance of a member of a trails entry: a point `q` may legitimately sit
in the entry of key `(p, c)` if it is the initial entry, the key's own point
(pushed along some real path), or flowed there from a predecessor entry along
a real expansion step. -/
inductive EntryOK (mz : Maze) (s0 : SState) : Point → Point × Nat → Prop where
  | init : EntryOK mz s0 s0.pt (s0.pt, 0)
  | self {p : Point} {c : Nat} {d : Direction} :
      Reach mz s0 ⟨d, p⟩ c → EntryOK mz s0 p (p, c)
  | flow {q p p' : Point} {c e : Nat} {d d' : Direction} :
      EntryOK mz s0 q (p, c) → Reach mz s0 ⟨d, p⟩ c →
      edgeG mz ⟨d, p⟩ ⟨d', p'⟩ e → EntryOK mz s0 q (p', c + e)

/-- The established invariant of the `find_djikstra` loop: every open node's
entry exists, contains the cells of a real path establishing the node, and
every member of every entry has a provenance. -/
structure InvD (mz : Maze) (s0 : SState) (cfg : CfgD) : Prop where
  hopen : ∀ n ∈ cfg.openq, ∃ s v,
      alLookup cfg.trails (n.point, n.cost) = some s ∧
      ReachV mz s0 ⟨n.direction, n.point⟩ n.cost v ∧ ∀ q ∈ v, q ∈ s
  hsound : ∀ k s, alLookup cfg.trails k = some s → ∀ q ∈ s, EntryOK mz s0 q k

theorem invD_init (mz : Maze) (reindeer : Point) (d : Direction) :
    InvD mz ⟨d, reindeer⟩ (initD mz reindeer d) := by
  constructor
  · intro n hn
    simp only [initD, List.mem_singleton] at hn
    subst hn
    exact ⟨[reindeer], [reindeer], by simp [alLookup], ReachV.refl, by simp⟩
  · intro k s hs q hq
    simp only [initD, alLookup] at hs
    split at hs
    case isTrue hk =>
        injection hs with hs
        subst hs
        simp only [List.mem_singleton] at hq
        subst hq
        rw [← hk]
        exact EntryOK.init
    case isFalse => simp [alLookup] at hs

/-- The successors of a popped Dijkstra node are exactly the edges of its
state, with matching costs; their trail keys differ from the current key. -/
theorem succD_edge {mz : Maze} {cur : NodeD}
    (hw : mz.tileAt cur.point ≠ Tile.wall) :
    ∀ nd ∈ succD cur, ∃ e, 1 ≤ e ∧
      edgeG mz ⟨cur.direction, cur.point⟩ ⟨nd.direction, nd.point⟩ e ∧
      nd.cost = cur.cost + e := by
  intro nd hnd
  simp only [succD, List.mem_cons, List.not_mem_nil, or_false] at hnd
  rcases hnd with rfl | rfl | rfl
  · exact ⟨COST_FORWARD, by simp [COST_FORWARD], ⟨hw, Or.inl ⟨rfl, rfl⟩⟩, rfl⟩
  · exact ⟨COST_ROTATE, by simp [COST_ROTATE], ⟨hw, Or.inr (Or.inl ⟨rfl, rfl⟩)⟩, rfl⟩
  · exact ⟨COST_ROTATE, by simp [COST_ROTATE], ⟨hw, Or.inr (Or.inr ⟨rfl, rfl⟩)⟩, rfl⟩

theorem succD_key_ne {mz : Maze} {cur : NodeD}
    (hw : mz.tileAt cur.point ≠ Tile.wall) :
    ∀ nd ∈ succD cur, (nd.point, nd.cost) ≠ (cur.point, cur.cost) := by
  intro nd hnd heq
  obtain ⟨e, he1, _, hc⟩ := succD_edge hw nd hnd
  have : nd.cost = cur.cost := congrArg Prod.snd heq
  omega

/-- Soundness of a full relaxation pass: provenance of every entry member is
preserved, the current node being established by a real path. -/
theorem relaxAll_sound {mz : Maze} {s0 : SState} {cur : NodeD} :
    ∀ (nds : List NodeD) (tr tr' : TrailsD),
      relaxAll (cur.point, cur.cost) tr nds = some tr' →
      (∀ k s, alLookup tr k = some s → ∀ q ∈ s, EntryOK mz s0 q k) →
      (∀ nd ∈ nds, ∃ e, 1 ≤ e ∧
        edgeG mz ⟨cur.direction, cur.point⟩ ⟨nd.direction, nd.point⟩ e ∧
        nd.cost = cur.cost + e) →
      Reach mz s0 ⟨cur.direction, cur.point⟩ cur.cost →
      ∀ k s, alLookup tr' k = some s → ∀ q ∈ s, EntryOK mz s0 q k := by
  intro nds
  induction nds with
  | nil =>
      intro tr tr' h hsound _ _ k s hs
      simp only [relaxAll, Option.some.injEq] at h
      subst h
      exact hsound k s hs
  | cons nd0 nds ih =>
      intro tr tr' h hsound hedges hreach
      simp only [relaxAll] at h
      cases h1 : relaxOne (cur.point, cur.cost) tr nd0 with
      | none => rw [h1] at h; simp at h
      | some tr1 =>
          rw [h1] at h
          obtain ⟨e0, he0, hedge0, hcost0⟩ := hedges nd0 (List.mem_cons_self _ _)
          have hsound1 : ∀ k s, alLookup tr1 k = some s → ∀ q ∈ s,
              EntryOK mz s0 q k := by
            obtain ⟨parent, hpar, htr1⟩ := relaxOne_some h1
            intro k s hs q hq
            by_cases hk : k = (nd0.point, nd0.cost)
            · subst hk
              obtain ⟨s', hs', _, _, hrev⟩ := relaxOne_new h1 hpar
              rw [hs] at hs'
              injection hs' with hs'
              subst hs'
              rcases hrev q hq with rfl | hq' | ⟨s₀, hs₀, hq₀⟩
              · rw [hcost0]
                exact EntryOK.self (Reach.tail hreach hedge0)
              · have hqok := hsound _ _ hpar q hq'
                rw [hcost0]
                exact EntryOK.flow hqok hreach hedge0
              · exact hsound _ _ hs₀ q hq₀
            · rw [htr1, alLookup_alUpdate_ne _ _ _ _ hk] at hs
              exact hsound k s hs q hq
          exact ih tr1 tr' h hsound1
            (fun nd hnd => hedges nd (List.mem_cons_of_mem _ hnd)) hreach

/-- Preservation of the Dijkstra invariant by one `.next` step. -/
theorem invD_step {mz : Maze} {s0 : SState} {cfg cfg' : CfgD} (inv : InvD mz s0 cfg)
    (h : stepD mz cfg = .next cfg') : InvD mz s0 cfg' := by
  unfold stepD at h
  cases hpop : popMinBy NodeD.cost cfg.openq with
  | none => rw [hpop] at h; simp at h
  | some pr =>
      obtain ⟨cur, rest⟩ := pr
      rw [hpop] at h
      dsimp at h
      have hrest : ∀ n ∈ rest, n ∈ cfg.openq := fun n hn =>
        (popMinBy_mem_iff hpop n).mpr (Or.inr hn)
      have hcur : cur ∈ cfg.openq := popMinBy_mem hpop
      split at h
      case isTrue hend => split at h <;> simp at h
      case isFalse hend =>
        split at h
        case isTrue hcl =>
          injection h with h'
          subst h'
          exact ⟨fun n hn => inv.hopen n (hrest n hn), inv.hsound⟩
        case isFalse hcl =>
          split at h
          case isTrue hwall =>
            injection h with h'
            subst h'
            exact ⟨fun n hn => inv.hopen n (hrest n hn), inv.hsound⟩
          case isFalse hwall =>
            cases hrx : relaxAll (cur.point, cur.cost) cfg.trails (succD cur) with
            | none => rw [hrx] at h; simp at h
            | some tr' =>
                rw [hrx] at h
                injection h with h'
                subst h'
                obtain ⟨sc, vc, hsc, hvc, hvs⟩ := inv.hopen cur hcur
                have hedges := succD_edge hwall
                constructor
                · intro n hn
                  rcases List.mem_append.mp hn with hn' | hn'
                  · obtain ⟨s, v, hs, hv, hsub⟩ := inv.hopen n (hrest n hn')
                    obtain ⟨s', hs', hsub'⟩ := relaxAll_mono _ _ _ hrx _ s hs
                    exact ⟨s', v, hs', hv, fun q hq => hsub' q (hsub q hq)⟩
                  · obtain ⟨e, he1, hedge, hcost⟩ := hedges n hn'
                    obtain ⟨s', hs', hmem', hsub'⟩ :=
                      relaxAll_covers _ _ _ sc hrx hsc (succD_key_ne hwall) n hn'
                    refine ⟨s', vc ++ [n.point], hs', ?_, ?_⟩
                    · rw [hcost]
                      exact ReachV.tail hvc hedge
                    · intro q hq
                      rcases List.mem_append.mp hq with hq' | hq'
                      · exact hsub' q (hvs q hq')
                      · simp only [List.mem_singleton] at hq'
                        subst hq'
                        exact hmem'
                · exact relaxAll_sound _ _ _ hrx inv.hsound hedges (reachV_reach hvc)

/-- Dissection of a returning `find_djikstra` step. -/
theorem stepD_found_dissect {mz : Maze} {cfg : CfgD} {c : Nat} {S : List Point}
    (h : stepD mz cfg = .found c S) :
    ∃ cur rest, popMinBy NodeD.cost cfg.openq = some (cur, rest) ∧
      cur.point = mz.endp ∧ cur.cost = c ∧
      alLookup cfg.trails (cur.point, cur.cost) = some S := by
  unfold stepD at h
  cases hpop : popMinBy NodeD.cost cfg.openq with
  | none => rw [hpop] at h; simp at h
  | some pr =>
      obtain ⟨cur, rest⟩ := pr
      rw [hpop] at h
      dsimp at h
      split at h
      case isTrue hend =>
        cases hlk : alLookup cfg.trails (cur.point, cur.cost) with
        | some s =>
            rw [hlk] at h
            injection h with h1 h2
            exact ⟨cur, rest, rfl, hend, h1, by rw [hlk, h2]⟩
        | none => rw [hlk] at h; simp at h
      case isFalse hend =>
        split at h
        · simp at h
        · split at h
          · simp at h
          · split at h <;> simp at h

/-- What a successful `find_djikstra` run guarantees about the returned pair:
the cost is established by a real path whose cells all belong to the returned
set, and every member of the returned set has a provenance for the end entry. -/
theorem runD_found_props {mz : Maze} {s0 : SState} :
    ∀ (fuel : Nat) (cfg : CfgD) (c : Nat) (S : List Point), InvD mz s0 cfg →
      runD mz cfg fuel = some (.found c S) →
      ∃ d' v, ReachV mz s0 ⟨d', mz.endp⟩ c v ∧ (∀ q ∈ v, q ∈ S) ∧
        ∀ q ∈ S, EntryOK mz s0 q (mz.endp, c) := by
  intro fuel
  induction fuel with
  | zero => intro cfg c S _ h; simp [runD] at h
  | succ fu ih =>
      intro cfg c S inv h
      rw [runD] at h
      cases hs : stepD mz cfg with
      | found c' S' =>
          rw [hs] at h
          simp only [Option.some.injEq, DRes.found.injEq] at h
          obtain ⟨rfl, rfl⟩ := h
          obtain ⟨cur, rest, hpop, hend, hcost, hlk⟩ := stepD_found_dissect hs
          obtain ⟨s, v, hsl, hv, hsub⟩ := inv.hopen cur (popMinBy_mem hpop)
          rw [hlk] at hsl
          injection hsl with hsl
          rw [hend, hcost] at hv
          refine ⟨cur.direction, v, hv, ?_, ?_⟩
          · intro q hq
            rw [hsl]
            exact hsub q hq
          · intro q hq
            have := inv.hsound _ _ hlk q hq
            rw [hend, hcost] at this
            exact this
      | fail => rw [hs] at h; simp at h
      | keyError => rw [hs] at h; simp at h
      | next cfg' =>
          rw [hs] at h
          exact ih cfg' c S (invD_step inv hs) h

/-! ### Claim C6: the returned set contains the start and end cells -/

/-- **C6.** Whenever `find_djikstra` returns, the returned set of cells
contains both the start cell it was launched from (the maze's start cell, as
passed by the callers) and the maze's end cell. -/
theorem c6_djikstra_set_has_start_end {mz : Maze} {reindeer : Point}
    {d : Direction} {fuel c : Nat} {S : List Point}
    (h : find_djikstra mz reindeer d fuel = some (.found c S)) :
    reindeer ∈ S ∧ mz.endp ∈ S := by
  obtain ⟨d', v, hv, hsub, _⟩ :=
    runD_found_props fuel (initD mz reindeer d) c S
      (invD_init mz reindeer d) h
  constructor
  · exact hsub _ (reachV_start_mem hv)
  · exact hsub _ (reachV_last_mem hv)

/-- Witness for C6: the 3×3 corridor of the spec's concrete scenario. -/
theorem c6_djikstra_set_has_start_end_witness :
    find_djikstra ⟨⟨0, 1⟩, ⟨2, 1⟩, [], 3, 3⟩ ⟨0, 1⟩ ⟨1, 0⟩ 10 =
      some (.found 2 [⟨0, 1⟩, ⟨1, 1⟩, ⟨2, 1⟩]) ∧
    (⟨0, 1⟩ : Point) ∈ [(⟨0, 1⟩ : Point), ⟨1, 1⟩, ⟨2, 1⟩] ∧
    (⟨2, 1⟩ : Point) ∈ [(⟨0, 1⟩ : Point), ⟨1, 1⟩, ⟨2, 1⟩] := by
  refine ⟨by decide, ?_⟩
  exact @c6_djikstra_set_has_start_end ⟨⟨0, 1⟩, ⟨2, 1⟩, [], 3, 3⟩ ⟨0, 1⟩ ⟨1, 0⟩
    10 2 [⟨0, 1⟩, ⟨1, 1⟩, ⟨2, 1⟩] (by decide)

/-! ### Claim C5: the searches raise exactly when the open queue is exhausted -/

/-- `k`-fold iteration of the `find_astar` loop body; `none` once the loop has
ended (by returning or raising) strictly before `k` iterations. -/
def iterA (mz : Maze) : CfgA → Nat → Option CfgA
  | cfg, 0 => some cfg
  | cfg, n + 1 =>
      match stepA mz cfg with
      | .next cfg' => iterA mz cfg' n
      | _ => none

/-- `k`-fold iteration of the `find_djikstra` loop body. -/
def iterD (mz : Maze) : CfgD → Nat → Option CfgD
  | cfg, 0 => some cfg
  | cfg, n + 1 =>
      match stepD mz cfg with
      | .next cfg' => iterD mz cfg' n
      | _ => none

theorem stepA_fail_iff (mz : Maze) {cfg : CfgA} :
    stepA mz cfg = .fail ↔ cfg.openq = [] := by
  constructor
  · intro h
    unfold stepA at h
    cases hpop : popMinBy NodeAStar.f cfg.openq with
    | none => exact (popMinBy_eq_none _ _).mp hpop
    | some pr =>
        obtain ⟨cur, rest⟩ := pr
        rw [hpop] at h
        dsimp at h
        split at h
        · simp at h
        · split at h
          · simp at h
          · split at h <;> simp at h
  · intro h
    unfold stepA
    rw [(popMinBy_eq_none NodeAStar.f cfg.openq).mpr h]

theorem stepD_fail_iff (mz : Maze) {cfg : CfgD} :
    stepD mz cfg = .fail ↔ cfg.openq = [] := by
  constructor
  · intro h
    unfold stepD at h
    cases hpop : popMinBy NodeD.cost cfg.openq with
    | none => exact (popMinBy_eq_none _ _).mp hpop
    | some pr =>
        obtain ⟨cur, rest⟩ := pr
        rw [hpop] at h
        dsimp at h
        split at h
        · split at h <;> simp at h
        · split at h
          · simp at h
          · split at h
            · simp at h
            · split at h <;> simp at h
  · intro h
    unfold stepD
    rw [(popMinBy_eq_none NodeD.cost cfg.openq).mpr h]

theorem runA_noRoute_iff {mz : Maze} :
    ∀ (fuel : Nat) (cfg : CfgA),
      runAstar mz cfg fuel = some .noRoute ↔
        ∃ k, k < fuel ∧ ∃ cfg', iterA mz cfg k = some cfg' ∧ cfg'.openq = [] := by
  intro fuel
  induction fuel with
  | zero =>
      intro cfg
      simp [runAstar]
  | succ fu ih =>
      intro cfg
      rw [runAstar]
      cases hs : stepA mz cfg with
      | found c t =>
          dsimp
          constructor
          · intro h; simp at h
          · rintro ⟨k, hk, cfg', hit, hemp⟩
            exfalso
            cases k with
            | zero =>
                simp only [iterA, Option.some.injEq] at hit
                subst hit
                have hf := (stepA_fail_iff mz).mpr hemp
                rw [hs] at hf
                simp at hf
            | succ k' =>
                simp only [iterA] at hit
                rw [hs] at hit
                simp at hit
      | fail =>
          dsimp
          constructor
          · intro _
            exact ⟨0, Nat.succ_pos fu, cfg, rfl, (stepA_fail_iff mz).mp hs⟩
          · intro _
            rfl
      | next cfg2 =>
          dsimp
          rw [ih cfg2]
          constructor
          · rintro ⟨k, hk, c2, hit, hemp⟩
            refine ⟨k + 1, by omega, c2, ?_, hemp⟩
            simp only [iterA]
            rw [hs]
            exact hit
          · rintro ⟨k, hk, c2, hit, hemp⟩
            cases k with
            | zero =>
                simp only [iterA, Option.some.injEq] at hit
                subst hit
                have hf := (stepA_fail_iff mz).mpr hemp
                rw [hs] at hf
                simp at hf
            | succ k' =>
                simp only [iterA] at hit
                rw [hs] at hit
                exact ⟨k', by omega, c2, hit, hemp⟩

theorem runD_noRoute_iff {mz : Maze} :
    ∀ (fuel : Nat) (cfg : CfgD),
      runD mz cfg fuel = some .noRoute ↔
        ∃ k, k < fuel ∧ ∃ cfg', iterD mz cfg k = some cfg' ∧ cfg'.openq = [] := by
  intro fuel
  induction fuel with
  | zero =>
      intro cfg
      simp [runD]
  | succ fu ih =>
      intro cfg
      rw [runD]
      cases hs : stepD mz cfg with
      | found c S =>
          dsimp
          constructor
          · intro h; simp at h
          · rintro ⟨k, hk, cfg', hit, hemp⟩
            exfalso
            cases k with
            | zero =>
                simp only [iterD, Option.some.injEq] at hit
                subst hit
                have hf := (stepD_fail_iff mz).mpr hemp
                rw [hs] at hf
                simp at hf
            | succ k' =>
                simp only [iterD] at hit
                rw [hs] at hit
                simp at hit
      | keyError =>
          dsimp
          constructor
          · intro h; simp at h
          · rintro ⟨k, hk, cfg', hit, hemp⟩
            exfalso
            cases k with
            | zero =>
                simp only [iterD, Option.some.injEq] at hit
                subst hit
                have hf := (stepD_fail_iff mz).mpr hemp
                rw [hs] at hf
                simp at hf
            | succ k' =>
                simp only [iterD] at hit
                rw [hs] at hit
                simp at hit
      | fail =>
          dsimp
          constructor
          · intro _
            exact ⟨0, Nat.succ_pos fu, cfg, rfl, (stepD_fail_iff mz).mp hs⟩
          · intro _
            rfl
      | next cfg2 =>
          dsimp
          rw [ih cfg2]
          constructor
          · rintro ⟨k, hk, c2, hit, hemp⟩
            refine ⟨k + 1, by omega, c2, ?_, hemp⟩
            simp only [iterD]
            rw [hs]
            exact hit
          · rintro ⟨k, hk, c2, hit, hemp⟩
            cases k with
            | zero =>
                simp only [iterD, Option.some.injEq] at hit
                subst hit
                have hf := (stepD_fail_iff mz).mpr hemp
                rw [hs] at hf
                simp at hf
            | succ k' =>
                simp only [iterD] at hit
                rw [hs] at hit
                exact ⟨k', by omega, c2, hit, hemp⟩

/-- With the invariant, no step of `find_djikstra` ever raises a `KeyError`. -/
theorem stepD_no_keyError {mz : Maze} {s0 : SState} {cfg : CfgD}
    (inv : InvD mz s0 cfg) : stepD mz cfg ≠ .keyError := by
  intro h
  unfold stepD at h
  cases hpop : popMinBy NodeD.cost cfg.openq with
  | none => rw [hpop] at h; simp at h
  | some pr =>
      obtain ⟨cur, rest⟩ := pr
      rw [hpop] at h
      dsimp at h
      obtain ⟨s, v, hs, _, _⟩ := inv.hopen cur (popMinBy_mem hpop)
      split at h
      · rw [hs] at h; simp at h
      · split at h
        · simp at h
        · split at h
          · simp at h
          · obtain ⟨tr', htr'⟩ :=
              @relaxAll_total (cur.point, cur.cost) (succD cur) cfg.trails
                (by rw [hs]; rfl)
            rw [htr'] at h
            simp at h

theorem runD_no_keyError {mz : Maze} {s0 : SState} :
    ∀ (fuel : Nat) (cfg : CfgD), InvD mz s0 cfg →
      runD mz cfg fuel ≠ some .keyError := by
  intro fuel
  induction fuel with
  | zero => intro cfg _ h; simp [runD] at h
  | succ fu ih =>
      intro cfg inv h
      rw [runD] at h
      cases hs : stepD mz cfg with
      | found c S => rw [hs] at h; simp at h
      | fail => rw [hs] at h; simp at h
      | keyError => exact stepD_no_keyError inv hs
      | next cfg' =>
          rw [hs] at h
          exact ih cfg' (invD_step inv hs) h

/-- **C5.** Each search raises its terminal "Route is not found" error exactly
when the open priority queue is exhausted before a node at the end cell is
popped — i.e. exactly when some iterate of the loop from the initial
configuration has an empty open queue — and no other outcome stands in for an
error: `find_djikstra` in particular never raises a `KeyError`, and neither
search has any sentinel value to return (`ARes`/`DRes` carry none). -/
theorem c5_error_iff_open_exhausted (mz : Maze) (reindeer : Point) (d : Direction)
    (fuelA fuelD : Nat) :
    (find_astar mz reindeer d fuelA = some .noRoute ↔
      ∃ k, k < fuelA ∧ ∃ cfg', iterA mz (initA mz reindeer d) k = some cfg' ∧
        cfg'.openq = []) ∧
    (find_djikstra mz reindeer d fuelD = some .noRoute ↔
      ∃ k, k < fuelD ∧ ∃ cfg', iterD mz (initD mz reindeer d) k = some cfg' ∧
        cfg'.openq = []) ∧
    find_djikstra mz reindeer d fuelD ≠ some .keyError :=
  ⟨runA_noRoute_iff fuelA (initA mz reindeer d),
   runD_noRoute_iff fuelD (initD mz reindeer d),
   runD_no_keyError fuelD (initD mz reindeer d) (invD_init mz reindeer d)⟩

/-! ### Claim C7: the trails mapping only ever grows -/

/-- One loop iteration never shrinks a trails entry. -/
theorem stepD_trails_mono {mz : Maze} {cfg cfg' : CfgD}
    (h : stepD mz cfg = .next cfg') :
    ∀ k s, alLookup cfg.trails k = some s →
      ∃ s', alLookup cfg'.trails k = some s' ∧ ∀ q ∈ s, q ∈ s' := by
  intro k s hs
  unfold stepD at h
  cases hpop : popMinBy NodeD.cost cfg.openq with
  | none => rw [hpop] at h; simp at h
  | some pr =>
      obtain ⟨cur, rest⟩ := pr
      rw [hpop] at h
      dsimp at h
      split at h
      · split at h <;> simp at h
      · split at h
        · injection h with h'
          subst h'
          exact ⟨s, hs, fun q hq => hq⟩
        · split at h
          · injection h with h'
            subst h'
            exact ⟨s, hs, fun q hq => hq⟩
          · cases hrx : relaxAll (cur.point, cur.cost) cfg.trails (succD cur) with
            | none => rw [hrx] at h; simp at h
            | some tr' =>
                rw [hrx] at h
                injection h with h'
                subst h'
                exact relaxAll_mono _ _ _ hrx k s hs

/-- **C7.** Throughout any run of `find_djikstra`, the trails mapping grows
monotonically: once a `(cell, cost)` entry exists, its value after any number
of further loop iterations is a superset of the earlier value (entries are
never removed and never shrink). -/
theorem c7_trails_monotone {mz : Maze} :
    ∀ (n : Nat) (cfg cfg2 : CfgD), iterD mz cfg n = some cfg2 →
      ∀ k s, alLookup cfg.trails k = some s →
        ∃ s', alLookup cfg2.trails k = some s' ∧ ∀ q ∈ s, q ∈ s' := by
  intro n
  induction n with
  | zero =>
      intro cfg cfg2 hit k s hs
      simp only [iterD, Option.some.injEq] at hit
      subst hit
      exact ⟨s, hs, fun q hq => hq⟩
  | succ n ih =>
      intro cfg cfg2 hit k s hs
      simp only [iterD] at hit
      cases hstep : stepD mz cfg with
      | next cfg1 =>
          rw [hstep] at hit
          obtain ⟨s1, hs1, hsub1⟩ := stepD_trails_mono hstep k s hs
          obtain ⟨s2, hs2, hsub2⟩ := ih cfg1 cfg2 hit k s1 hs1
          exact ⟨s2, hs2, fun q hq => hsub2 q (hsub1 q hq)⟩
      | found c S => rw [hstep] at hit; simp at hit
      | fail => rw [hstep] at hit; simp at hit
      | keyError => rw [hstep] at hit; simp at hit

/-- The configuration after one `find_djikstra` iteration on the 3×3 corridor
maze, used by the monotonicity witness. -/
def c7cfg : CfgD :=
  ⟨[⟨1, ⟨1, 0⟩, ⟨1, 1⟩⟩, ⟨1000, ⟨0, -1⟩, ⟨0, 1⟩⟩, ⟨1000, ⟨0, 1⟩, ⟨0, 1⟩⟩],
   [⟨⟨1, 0⟩, ⟨0, 1⟩⟩],
   [((⟨0, 1⟩, 0), [⟨0, 1⟩]), ((⟨1, 1⟩, 1), [⟨0, 1⟩, ⟨1, 1⟩]),
    ((⟨0, 1⟩, 1000), [⟨0, 1⟩])]⟩

/-- Witness for C7: after one iteration on the 3×3 corridor, the initial entry
of the start key is still present and contains everything it contained. -/
theorem c7_trails_monotone_witness :
    iterD ⟨⟨0, 1⟩, ⟨2, 1⟩, [], 3, 3⟩
        (initD ⟨⟨0, 1⟩, ⟨2, 1⟩, [], 3, 3⟩ ⟨0, 1⟩ ⟨1, 0⟩) 1 = some c7cfg ∧
    ∃ s', alLookup c7cfg.trails (⟨0, 1⟩, 0) = some s' ∧
      ∀ q ∈ [(⟨0, 1⟩ : Point)], q ∈ s' := by
  refine ⟨by decide, ?_⟩
  exact @c7_trails_monotone ⟨⟨0, 1⟩, ⟨2, 1⟩, [], 3, 3⟩ 1
    (initD ⟨⟨0, 1⟩, ⟨2, 1⟩, [], 3, 3⟩ ⟨0, 1⟩ ⟨1, 0⟩) c7cfg (by decide)
    (⟨0, 1⟩, 0) [⟨0, 1⟩] (by decide)

/-! ### Claim C1: the left-right rotation round trip (code bug) -/

/-- **C1 (code bug).** The claimed round-trip law fails on the code: because
`Direction.__mul__` computes *both* components from `c1r0` (its second line
reads `c1r0` where the matrix layout documented by the `Rotation` field names
requires `c0r1`, a field the method never reads), `RotateLeft` acts as
`(x, y) ↦ (-y, -x)` and `RotateRight` as `(x, y) ↦ (y, x)`.  Rotating east
left then right (or right then left) therefore yields *west*, and the same
failure occurs at every cardinal heading.  With the intended matrix product
(`Direction.mulSpec`), the round trip restores every cardinal heading, which
identifies the claim as the intent and the code as the slip. -/
theorem c1_rotate_roundtrip_code_bug :
    Direction.mul (Direction.mul ⟨1, 0⟩ RotateLeft) RotateRight = ⟨-1, 0⟩ ∧
    Direction.mul (Direction.mul ⟨1, 0⟩ RotateRight) RotateLeft = ⟨-1, 0⟩ ∧
    (⟨-1, 0⟩ : Direction) ≠ ⟨1, 0⟩ ∧
    cardinals.all
      (fun d => decide (Direction.mul (Direction.mul d RotateLeft) RotateRight ≠ d))
      = true ∧
    cardinals.all
      (fun d => decide (Direction.mul (Direction.mul d RotateRight) RotateLeft ≠ d))
      = true ∧
    cardinals.map
      (fun d => Direction.mulSpec (Direction.mulSpec d RotateLeft) RotateRight) =
      cardinals ∧
    cardinals.map
      (fun d => Direction.mulSpec (Direction.mulSpec d RotateRight) RotateLeft) =
      cardinals := by
  decide

/-! ### Claim C8: each rotation is a bijection of the heading set, of order
dividing four -/

/-- **C8.** Both rotation operators, as implemented (`Direction.mul`), permute
the 4-element set of cardinal unit headings, and applying the same operator
four consecutive times to any cardinal heading is the identity (here each
operator is even an involution, so its fourth power certainly is). -/
theorem c8_rotation_bijection_order_four :
    (cardinals.map (fun d => Direction.mul d RotateLeft)).Perm cardinals ∧
    (cardinals.map (fun d => Direction.mul d RotateRight)).Perm cardinals ∧
    cardinals.map
      (fun d => Direction.mul (Direction.mul (Direction.mul
        (Direction.mul d RotateLeft) RotateLeft) RotateLeft) RotateLeft) =
      cardinals ∧
    cardinals.map
      (fun d => Direction.mul (Direction.mul (Direction.mul
        (Direction.mul d RotateRight) RotateRight) RotateRight) RotateRight) =
      cardinals := by
  decide

/-! ### Claim C2: successor generation is gated by the current cell, not the
destination -/

/-- The maze of the C2 counterexample: an open start at the origin facing a
wall cell to its east. -/
def c2maze : Maze := ⟨⟨0, 0⟩, ⟨5, 5⟩, [(⟨1, 0⟩, Tile.wall)], 6, 6⟩

/-- The forward successor `find_astar` pushes from the start of `c2maze`. -/
def c2fwdNode : NodeAStar := ⟨⟨1, 0⟩, ⟨1, 0⟩, 1, 9, [⟨0, 0⟩, ⟨1, 0⟩]⟩

/-- The configuration after the first `find_astar` iteration on `c2maze`. -/
def c2cfgA : CfgA :=
  ⟨[c2fwdNode, ⟨⟨0, -1⟩, ⟨0, 0⟩, 1000, 10, [⟨0, 0⟩]⟩,
    ⟨⟨0, 1⟩, ⟨0, 0⟩, 1000, 10, [⟨0, 0⟩]⟩], [⟨⟨1, 0⟩, ⟨0, 0⟩⟩]⟩

/-- The forward successor `find_djikstra` pushes from the start of `c2maze`. -/
def c2fwdNodeD : NodeD := ⟨1, ⟨1, 0⟩, ⟨1, 0⟩⟩

/-- The configuration after the first `find_djikstra` iteration on `c2maze`. -/
def c2cfgD : CfgD :=
  ⟨[c2fwdNodeD, ⟨1000, ⟨0, -1⟩, ⟨0, 0⟩⟩, ⟨1000, ⟨0, 1⟩, ⟨0, 0⟩⟩],
   [⟨⟨1, 0⟩, ⟨0, 0⟩⟩],
   [((⟨0, 0⟩, 0), [⟨0, 0⟩]), ((⟨1, 0⟩, 1), [⟨0, 0⟩, ⟨1, 0⟩]),
    ((⟨0, 0⟩, 1000), [⟨0, 0⟩])]⟩

/-- **C2 counterexample.** The claim "the forward successor is generated only
if the destination cell is not a wall" is false of the code: on `c2maze`, the
destination of the forward move from the start is a wall, yet both searches
generate and push the forward successor (the source tests
`maze.tiles.get(current.point, ...)`, the *current* cell). -/
theorem c2_forward_into_wall_counterexample :
    c2maze.tileAt ⟨1, 0⟩ = Tile.wall ∧
    stepA c2maze (initA c2maze ⟨0, 0⟩ ⟨1, 0⟩) = .next c2cfgA ∧
    c2fwdNode ∈ c2cfgA.openq ∧
    c2fwdNode.point = ⟨1, 0⟩ ∧
    stepD c2maze (initD c2maze ⟨0, 0⟩ ⟨1, 0⟩) = .next c2cfgD ∧
    c2fwdNodeD ∈ c2cfgD.openq ∧
    c2fwdNodeD.point = ⟨1, 0⟩ := by
  decide

/-- **C2 (amended).** In each expansion step of `find_astar` and
`find_djikstra`, when the popped node is neither at the end nor already
closed, the three successors are generated if and only if the *current* cell
is not a wall; in that case the forward successor (cost `+COST_FORWARD`,
trail extended with the destination cell) is generated unconditionally —
even when the destination is a wall — and the rotate-left and rotate-right
successors cost `+COST_ROTATE` and keep the trail unchanged; when the current
cell is a wall, no successor is generated. -/
theorem c2_successors_gated_by_current_cell :
    (∀ (mz : Maze) (cfg : CfgA) (cur : NodeAStar) (rest : List NodeAStar),
      popMinBy NodeAStar.f cfg.openq = some (cur, rest) →
      cur.point ≠ mz.endp →
      (⟨cur.direction, cur.point⟩ : SState) ∉ cfg.closedl →
      (mz.tileAt cur.point ≠ Tile.wall →
        stepA mz cfg = .next ⟨rest ++ [fwdA mz cur, rotLA cur, rotRA cur],
          cfg.closedl ++ [⟨cur.direction, cur.point⟩]⟩ ∧
        (fwdA mz cur).g = cur.g + COST_FORWARD ∧
        (fwdA mz cur).point = cur.point.add cur.direction ∧
        (fwdA mz cur).trail = trailAdd cur.trail (cur.point.add cur.direction) ∧
        (rotLA cur).g = cur.g + COST_ROTATE ∧ (rotLA cur).trail = cur.trail ∧
        (rotRA cur).g = cur.g + COST_ROTATE ∧ (rotRA cur).trail = cur.trail) ∧
      (mz.tileAt cur.point = Tile.wall →
        stepA mz cfg = .next ⟨rest, cfg.closedl ++ [⟨cur.direction, cur.point⟩]⟩)) ∧
    (∀ (mz : Maze) (cfg : CfgD) (cur : NodeD) (rest : List NodeD),
      popMinBy NodeD.cost cfg.openq = some (cur, rest) →
      cur.point ≠ mz.endp →
      (⟨cur.direction, cur.point⟩ : SState) ∉ cfg.closedl →
      (∀ tr', mz.tileAt cur.point ≠ Tile.wall →
        relaxAll (cur.point, cur.cost) cfg.trails (succD cur) = some tr' →
        stepD mz cfg = .next ⟨rest ++ succD cur,
          cfg.closedl ++ [⟨cur.direction, cur.point⟩], tr'⟩ ∧
        succD cur = [⟨cur.cost + COST_FORWARD, cur.direction,
            cur.point.add cur.direction⟩,
          ⟨cur.cost + COST_ROTATE, cur.direction.mul RotateLeft, cur.point⟩,
          ⟨cur.cost + COST_ROTATE, cur.direction.mul RotateRight, cur.point⟩]) ∧
      (mz.tileAt cur.point = Tile.wall →
        stepD mz cfg = .next ⟨rest, cfg.closedl ++ [⟨cur.direction, cur.point⟩],
          cfg.trails⟩)) := by
  constructor
  · intro mz cfg cur rest hpop hend hcl
    constructor
    · intro hwall
      refine ⟨?_, rfl, rfl, rfl, rfl, rfl, rfl, rfl⟩
      unfold stepA
      rw [hpop]
      dsimp
      rw [if_neg hend, if_neg hcl, if_neg hwall]
    · intro hwall
      unfold stepA
      rw [hpop]
      dsimp
      rw [if_neg hend, if_neg hcl, if_pos hwall]
  · intro mz cfg cur rest hpop hend hcl
    constructor
    · intro tr' hwall hrx
      refine ⟨?_, rfl⟩
      unfold stepD
      rw [hpop]
      dsimp
      rw [if_neg hend, if_neg hcl, if_neg hwall, hrx]
    · intro hwall
      unfold stepD
      rw [hpop]
      dsimp
      rw [if_neg hend, if_neg hcl, if_pos hwall]

/-- Witness for the amended C2 at a concrete input: the first expansion on
`c2maze` produces exactly the characterized configurations. -/
theorem c2_successors_gated_by_current_cell_witness :
    stepA c2maze (initA c2maze ⟨0, 0⟩ ⟨1, 0⟩) = .next c2cfgA ∧
    stepD c2maze (initD c2maze ⟨0, 0⟩ ⟨1, 0⟩) = .next c2cfgD := by
  constructor
  · have h := (c2_successors_gated_by_current_cell.1 c2maze
      (initA c2maze ⟨0, 0⟩ ⟨1, 0⟩) ⟨⟨1, 0⟩, ⟨0, 0⟩, 0, 10, [⟨0, 0⟩]⟩ []
      (by decide) (by decide) (by decide)).1 (by decide)
    rw [h.1]
    decide
  · have h := ((c2_successors_gated_by_current_cell.2 c2maze
      (initD c2maze ⟨0, 0⟩ ⟨1, 0⟩) ⟨0, ⟨1, 0⟩, ⟨0, 0⟩⟩ []
      (by decide) (by decide) (by decide)).1 c2cfgD.trails (by decide) (by decide)).1
    rw [h]
    decide

/-! ### Claim C9: both searches are deterministic -/

/-- **C9.** Both searches are deterministic functions of maze, start cell,
start heading and fuel: two runs return equal results, and for
`find_djikstra` two returned sets have the same cost and the same membership
(the embedding is a pure function, so no run-to-run variation exists). -/
theorem c9_deterministic (mz : Maze) (reindeer : Point) (d : Direction)
    (fuel : Nat) {r1 r2 : Option ARes} {q1 q2 : Option DRes}
    (h1 : find_astar mz reindeer d fuel = r1)
    (h2 : find_astar mz reindeer d fuel = r2)
    (h3 : find_djikstra mz reindeer d fuel = q1)
    (h4 : find_djikstra mz reindeer d fuel = q2) :
    r1 = r2 ∧ q1 = q2 ∧
    ∀ c1 S1 c2 S2, q1 = some (.found c1 S1) → q2 = some (.found c2 S2) →
      c1 = c2 ∧ ∀ p, p ∈ S1 ↔ p ∈ S2 := by
  have hr : r1 = r2 := by rw [← h1, ← h2]
  have hq : q1 = q2 := by rw [← h3, ← h4]
  refine ⟨hr, hq, ?_⟩
  intro c1 S1 c2 S2 hq1 hq2
  rw [hq, hq2] at hq1
  simp only [Option.some.injEq, DRes.found.injEq] at hq1
  obtain ⟨rfl, rfl⟩ := hq1
  exact ⟨rfl, fun p => Iff.rfl⟩

/-- Witness for C9 on the 3×3 corridor. -/
theorem c9_deterministic_witness :
    let r := find_astar ⟨⟨0, 1⟩, ⟨2, 1⟩, [], 3, 3⟩ ⟨0, 1⟩ ⟨1, 0⟩ 10
    let q := find_djikstra ⟨⟨0, 1⟩, ⟨2, 1⟩, [], 3, 3⟩ ⟨0, 1⟩ ⟨1, 0⟩ 10
    r = r ∧ q = q ∧
      ∀ c1 S1 c2 S2, q = some (.found c1 S1) → q = some (.found c2 S2) →
        c1 = c2 ∧ ∀ p, p ∈ S1 ↔ p ∈ S2 :=
  c9_deterministic ⟨⟨0, 1⟩, ⟨2, 1⟩, [], 3, 3⟩ ⟨0, 1⟩ ⟨1, 0⟩ 10 rfl rfl rfl rfl

/-! ### Claim C10: the end test precedes the closed and wall tests -/

/-- The maze of the C10 scenario: the end cell is a wall, adjacent (east) to
the open start cell. -/
def c10maze : Maze := ⟨⟨0, 0⟩, ⟨1, 0⟩, [(⟨1, 0⟩, Tile.wall)], 2, 1⟩

/-- **C10.** In both searches the end test on a popped node precedes the
closed and wall tests: any popped node at the end cell returns immediately,
whatever the closed set and the tiles say; in particular on `c10maze`, whose
end cell is a wall adjacent to the reachable open start, both searches return
the finite cost 1 instead of a route-not-found error. -/
theorem c10_end_test_precedes_closed_and_wall :
    (∀ (mz : Maze) (cfg : CfgA) (cur : NodeAStar) (rest : List NodeAStar),
      popMinBy NodeAStar.f cfg.openq = some (cur, rest) → cur.point = mz.endp →
      stepA mz cfg = .found cur.g cur.trail) ∧
    (∀ (mz : Maze) (cfg : CfgD) (cur : NodeD) (rest : List NodeD) (S : List Point),
      popMinBy NodeD.cost cfg.openq = some (cur, rest) → cur.point = mz.endp →
      alLookup cfg.trails (cur.point, cur.cost) = some S →
      stepD mz cfg = .found cur.cost S) ∧
    c10maze.tileAt c10maze.endp = Tile.wall ∧
    c10maze.tileAt ⟨0, 0⟩ ≠ Tile.wall ∧
    c10maze.endp = Point.add ⟨0, 0⟩ ⟨1, 0⟩ ∧
    find_astar c10maze ⟨0, 0⟩ ⟨1, 0⟩ 3 = some (.found 1 [⟨0, 0⟩, ⟨1, 0⟩]) ∧
    find_djikstra c10maze ⟨0, 0⟩ ⟨1, 0⟩ 3 = some (.found 1 [⟨0, 0⟩, ⟨1, 0⟩]) := by
  refine ⟨?_, ?_, by decide, by decide, by decide, by decide, by decide⟩
  · intro mz cfg cur rest hpop hend
    unfold stepA
    rw [hpop]
    dsimp
    rw [if_pos hend]
  · intro mz cfg cur rest S hpop hend hlk
    unfold stepD
    rw [hpop]
    dsimp
    rw [if_pos hend, hlk]

/-- Witness for C10's universally quantified parts, at the second iteration on
`c10maze` where the popped node sits on the wall end cell. -/
theorem c10_end_test_precedes_witness :
    stepA c10maze ⟨[⟨⟨1, 0⟩, ⟨1, 0⟩, 1, 0, [⟨0, 0⟩, ⟨1, 0⟩]⟩], [⟨⟨1, 0⟩, ⟨0, 0⟩⟩]⟩ =
      .found 1 [⟨0, 0⟩, ⟨1, 0⟩] ∧
    stepD c10maze ⟨[⟨1, ⟨1, 0⟩, ⟨1, 0⟩⟩], [⟨⟨1, 0⟩, ⟨0, 0⟩⟩],
        [((⟨0, 0⟩, 0), [⟨0, 0⟩]), ((⟨1, 0⟩, 1), [⟨0, 0⟩, ⟨1, 0⟩])]⟩ =
      .found 1 [⟨0, 0⟩, ⟨1, 0⟩] := by
  constructor
  · exact c10_end_test_precedes_closed_and_wall.1 c10maze
      ⟨[⟨⟨1, 0⟩, ⟨1, 0⟩, 1, 0, [⟨0, 0⟩, ⟨1, 0⟩]⟩], [⟨⟨1, 0⟩, ⟨0, 0⟩⟩]⟩
      ⟨⟨1, 0⟩, ⟨1, 0⟩, 1, 0, [⟨0, 0⟩, ⟨1, 0⟩]⟩ [] (by decide) (by decide)
  · exact c10_end_test_precedes_closed_and_wall.2.1 c10maze
      ⟨[⟨1, ⟨1, 0⟩, ⟨1, 0⟩⟩], [⟨⟨1, 0⟩, ⟨0, 0⟩⟩],
        [((⟨0, 0⟩, 0), [⟨0, 0⟩]), ((⟨1, 0⟩, 1), [⟨0, 0⟩, ⟨1, 0⟩])]⟩
      ⟨1, ⟨1, 0⟩, ⟨1, 0⟩⟩ [] [⟨0, 0⟩, ⟨1, 0⟩] (by decide) (by decide) (by decide)

/-! ### Claim C4: straight corridors

A trivial straight corridor of length `N`: start at `p0`, cardinal heading
`d0`, end `N` cells ahead, no walls anywhere. -/

/-- Manhattan distance between two points. -/
def manPts (p q : Point) : Nat := (q.x - p.x).natAbs + (q.y - p.y).natAbs

/-- The cell `n` steps ahead of `p` in direction `d`. -/
def ptShift (p : Point) (d : Direction) (n : Nat) : Point :=
  ⟨p.x + n * d.x, p.y + n * d.y⟩

/-- The corridor maze: start `p0`, end `N` cells ahead in direction `d0`,
no walls. -/
def corridorMaze (p0 : Point) (d0 : Direction) (N : Nat) : Maze :=
  ⟨p0, ptShift p0 d0 N, [], N + 1, 1⟩

/-- The `c + 1` cells of the corridor prefix of length `c`. -/
def corrCells (p0 : Point) (d0 : Direction) (c : Nat) : List Point :=
  (List.range (c + 1)).map (ptShift p0 d0)

/-- Graph distance between two headings in the rotation 4-cycle (the two
involutions `·.mul RotateLeft` and `·.mul RotateRight` connect each cardinal
heading to the two perpendicular ones; opposite headings are two apart). -/
def dist4 (a b : Direction) : Nat :=
  if b = a then 0 else if b = ⟨-a.x, -a.y⟩ then 2 else 1

theorem ptShift_zero (p : Point) (d : Direction) : ptShift p d 0 = p := by
  simp [ptShift]

theorem ptShift_succ (p : Point) (d : Direction) (n : Nat) :
    ptShift p d (n + 1) = (ptShift p d n).add d := by
  simp only [ptShift, Point.add, Point.mk.injEq]
  constructor <;> (push_cast; ring)

theorem manPts_self (p : Point) : manPts p p = 0 := by
  simp [manPts]

theorem manPts_ptShift {d : Direction} (hd : d ∈ cardinals) (p : Point) (n : Nat) :
    manPts p (ptShift p d n) = n := by
  simp only [cardinals, List.mem_cons, List.not_mem_nil, or_false] at hd
  rcases hd with rfl | rfl | rfl | rfl <;> (simp only [manPts, ptShift]; omega)

theorem manPts_add_le {d : Direction} (hd : d ∈ cardinals) (p0 p : Point) :
    manPts p0 (p.add d) ≤ manPts p0 p + 1 := by
  simp only [cardinals, List.mem_cons, List.not_mem_nil, or_false] at hd
  rcases hd with rfl | rfl | rfl | rfl <;> (simp only [manPts, Point.add]; omega)

theorem dist4_self (a : Direction) : dist4 a a = 0 := by
  simp [dist4]

theorem dist4_mulL :
    ∀ a ∈ cardinals, ∀ b ∈ cardinals,
      dist4 a (b.mul RotateLeft) ≤ dist4 a b + 1 := by
  decide

theorem dist4_mulR :
    ∀ a ∈ cardinals, ∀ b ∈ cardinals,
      dist4 a (b.mul RotateRight) ≤ dist4 a b + 1 := by
  decide

/-- Lower bound on any path cost: at least the Manhattan displacement plus
`COST_ROTATE` times the heading distance. -/
theorem reach_cost_lower {mz : Maze} {s0 t : SState} {c : Nat}
    (h : Reach mz s0 t c) (hd : s0.dir ∈ cardinals) :
    manPts s0.pt t.pt + COST_ROTATE * dist4 s0.dir t.dir ≤ c := by
  induction h with
  | refl => simp [manPts_self, dist4_self]
  | tail hr he ih =>
      rename_i t' u c' e
      have ht' : t'.dir ∈ cardinals := reach_dir_cardinal hr hd
      rcases he.2 with ⟨rfl, rfl⟩ | ⟨rfl, rfl⟩ | ⟨rfl, rfl⟩
      · have hstep := manPts_add_le ht' s0.pt t'.pt
        simp only [COST_FORWARD]
        omega
      · have hstep := dist4_mulL s0.dir hd t'.dir ht'
        simp only [COST_ROTATE] at *
        omega
      · have hstep := dist4_mulR s0.dir hd t'.dir ht'
        simp only [COST_ROTATE] at *
        omega

/-- The straight path down the corridor. -/
theorem corridor_reach (p0 : Point) (d0 : Direction) (N : Nat) :
    ∀ j : Nat, Reach (corridorMaze p0 d0 N) ⟨d0, p0⟩ ⟨d0, ptShift p0 d0 j⟩ j := by
  intro j
  induction j with
  | zero => rw [ptShift_zero]; exact Reach.refl
  | succ n ih =>
      have hedge : edgeG (corridorMaze p0 d0 N) ⟨d0, ptShift p0 d0 n⟩
          ⟨d0, ptShift p0 d0 (n + 1)⟩ COST_FORWARD := by
        refine ⟨by simp [corridorMaze, Maze.tileAt, alLookup], Or.inl ⟨?_, rfl⟩⟩
        rw [ptShift_succ]
      exact Reach.tail ih hedge

/-- The optimal end cost of the corridor is exactly `N`. -/
theorem corridor_min {p0 : Point} {d0 : Direction} {N : Nat}
    (hd : d0 ∈ cardinals) {c : Nat}
    (h : IsMinEnd (corridorMaze p0 d0 N) ⟨d0, p0⟩ c) : c = N := by
  obtain ⟨⟨t, ht, hr⟩, hmin⟩ := h
  have hle : c ≤ N := hmin ⟨d0, ptShift p0 d0 N⟩ N rfl (corridor_reach p0 d0 N N)
  have hlow := reach_cost_lower hr hd
  have hpt : t.pt = ptShift p0 d0 N := ht
  rw [hpt] at hlow
  have hman : manPts p0 (ptShift p0 d0 N) = N := manPts_ptShift hd p0 N
  dsimp at hlow
  omega

theorem corrCells_succ (p0 : Point) (d0 : Direction) (c : Nat) :
    corrCells p0 d0 (c + 1) = corrCells p0 d0 c ++ [ptShift p0 d0 (c + 1)] := by
  simp [corrCells, List.range_succ]

theorem ptShift_mem_corrCells (p0 : Point) (d0 : Direction) {j c : Nat}
    (h : j ≤ c) : ptShift p0 d0 j ∈ corrCells p0 d0 c := by
  simp only [corrCells, List.mem_map]
  exact ⟨j, List.mem_range.mpr (by omega), rfl⟩


/-- A path through the corridor whose cost equals the Manhattan displacement
is the straight prefix: same heading, the expected endpoint, and exactly the
corridor cells as its visited list. -/
theorem reachV_tight {p0 : Point} {d0 : Direction} {N : Nat}
    (hd : d0 ∈ cardinals) :
    ∀ {t : SState} {c : Nat} {v : List Point},
      ReachV (corridorMaze p0 d0 N) ⟨d0, p0⟩ t c v →
      c = manPts p0 t.pt →
      t.dir = d0 ∧ t.pt = ptShift p0 d0 c ∧ v = corrCells p0 d0 c := by
  intro t c v h
  induction h with
  | refl =>
      intro _
      refine ⟨rfl, (ptShift_zero p0 d0).symm, ?_⟩
      have h1 : List.range 1 = [0] := by decide
      simp [corrCells, h1, ptShift_zero]
  | tail hrv he ih =>
      rename_i t' u c' e v'
      intro htight
      have hlow : manPts p0 t'.pt + COST_ROTATE * dist4 d0 t'.dir ≤ c' :=
        reach_cost_lower (reachV_reach hrv) (by exact hd)
      rcases he.2 with ⟨rfl, rfl⟩ | ⟨rfl, rfl⟩ | ⟨rfl, rfl⟩
      · have ht' : t'.dir ∈ cardinals :=
          reach_dir_cardinal (reachV_reach hrv) (by exact hd)
        have hstep := manPts_add_le ht' p0 t'.pt
        have htight2 : c' + COST_FORWARD = manPts p0 (t'.pt.add t'.dir) := htight
        have htight' : c' = manPts p0 t'.pt := by
          simp only [COST_ROTATE] at hlow
          simp only [COST_FORWARD] at htight2
          omega
        obtain ⟨hdir, hpt, hv⟩ := ih htight'
        refine ⟨hdir, ?_, ?_⟩
        · show t'.pt.add t'.dir = ptShift p0 d0 (c' + 1)
          rw [ptShift_succ, ← hpt, hdir]
        · show v' ++ [(t'.pt.add t'.dir)] = corrCells p0 d0 (c' + 1)
          rw [corrCells_succ, hv, ptShift_succ, ← hpt, hdir]
      · exfalso
        have htight2 : c' + COST_ROTATE = manPts p0 t'.pt := htight
        simp only [COST_ROTATE] at htight2 hlow
        omega
      · exfalso
        have htight2 : c' + COST_ROTATE = manPts p0 t'.pt := htight
        simp only [COST_ROTATE] at htight2 hlow
        omega

/-- Every provenance for a tight corridor key lies on the corridor prefix. -/
theorem entryOK_tight {p0 : Point} {d0 : Direction} {N : Nat}
    (hd : d0 ∈ cardinals) :
    ∀ {q : Point} {k : Point × Nat},
      EntryOK (corridorMaze p0 d0 N) ⟨d0, p0⟩ q k →
      k.2 = manPts p0 k.1 →
      q ∈ corrCells p0 d0 k.2 := by
  intro q k h
  induction h with
  | init =>
      intro _
      show p0 ∈ corrCells p0 d0 0
      have h1 : List.range 1 = [0] := by decide
      simp [corrCells, h1, ptShift_zero]
  | self hr =>
      rename_i p c d
      intro htight
      obtain ⟨v, hv⟩ := reach_reachV hr
      obtain ⟨_, hpt, _⟩ := reachV_tight hd hv htight
      show p ∈ corrCells p0 d0 c
      rw [show p = ptShift p0 d0 c from hpt]
      exact ptShift_mem_corrCells p0 d0 (le_refl c)
  | flow hok hr he ih =>
      rename_i q' p p' c e d d'
      intro htight
      have hlow : manPts p0 p + COST_ROTATE * dist4 d0 d ≤ c :=
        reach_cost_lower hr (by exact hd)
      rcases he.2 with ⟨hu, rfl⟩ | ⟨hu, rfl⟩ | ⟨hu, rfl⟩
      · have hd' : d ∈ cardinals := reach_dir_cardinal hr (by exact hd)
        have hp' : p' = p.add d := congrArg SState.pt hu
        have hstep := manPts_add_le hd' p0 p
        have htight2 : c + COST_FORWARD = manPts p0 p' := htight
        rw [hp'] at htight2
        have htight' : c = manPts p0 p := by
          simp only [COST_ROTATE] at hlow
          simp only [COST_FORWARD] at htight2
          omega
        have hq := ih htight'
        show q' ∈ corrCells p0 d0 (c + COST_FORWARD)
        have : c + COST_FORWARD = c + 1 := rfl
        rw [this, corrCells_succ]
        exact List.mem_append_left _ hq
      · exfalso
        have hp' : p' = p := congrArg SState.pt hu
        have htight2 : c + COST_ROTATE = manPts p0 p' := htight
        rw [hp'] at htight2
        simp only [COST_ROTATE] at htight2 hlow
        omega
      · exfalso
        have hp' : p' = p := congrArg SState.pt hu
        have htight2 : c + COST_ROTATE = manPts p0 p' := htight
        rw [hp'] at htight2
        simp only [COST_ROTATE] at htight2 hlow
        omega

theorem corrCells_length (p0 : Point) (d0 : Direction) (c : Nat) :
    (corrCells p0 d0 c).length = c + 1 := by
  simp [corrCells]

theorem ptShift_injective {d0 : Direction} (hd : d0 ∈ cardinals) (p0 : Point) :
    ∀ a b : Nat, ptShift p0 d0 a = ptShift p0 d0 b → a = b := by
  intro a b hab
  simp only [cardinals, List.mem_cons, List.not_mem_nil, or_false] at hd
  rcases hd with rfl | rfl | rfl | rfl <;>
  · simp only [ptShift, Point.mk.injEq] at hab
    omega

theorem corrCells_nodup {d0 : Direction} (hd : d0 ∈ cardinals) (p0 : Point)
    (c : Nat) : (corrCells p0 d0 c).Nodup :=
  List.Nodup.map (fun a b hab => ptShift_injective hd p0 a b hab)
    (List.nodup_range _)

/-- **C4.** On a trivial straight corridor of length `N` aligned with the
(cardinal) start heading — start `p0`, end `N` cells ahead, no walls —
whenever `find_astar` returns it returns cost `N`, and whenever
`find_djikstra` returns it returns cost `N` together with a set whose members
are exactly the `N + 1` corridor cells (a duplicate-free list of length
`N + 1`); in particular, on the spec's 3×3 corridor with the end two cells
east of the start and the agent facing east, the cost is 2 and the set is the
3 cells start, middle, end. -/
theorem c4_corridor_costs_and_cells (p0 : Point) (d0 : Direction) (N : Nat)
    (hd : d0 ∈ cardinals) (fuelA fuelD : Nat) :
    (∀ c t, find_astar (corridorMaze p0 d0 N) p0 d0 fuelA = some (.found c t) →
      c = N) ∧
    (∀ c S, find_djikstra (corridorMaze p0 d0 N) p0 d0 fuelD = some (.found c S) →
      c = N ∧ (∀ q, q ∈ S ↔ q ∈ corrCells p0 d0 N)) ∧
    (corrCells p0 d0 N).length = N + 1 ∧
    (corrCells p0 d0 N).Nodup ∧
    find_astar ⟨⟨0, 1⟩, ⟨2, 1⟩, [], 3, 3⟩ ⟨0, 1⟩ ⟨1, 0⟩ 10 =
      some (.found 2 [⟨0, 1⟩, ⟨1, 1⟩, ⟨2, 1⟩]) ∧
    find_djikstra ⟨⟨0, 1⟩, ⟨2, 1⟩, [], 3, 3⟩ ⟨0, 1⟩ ⟨1, 0⟩ 10 =
      some (.found 2 [⟨0, 1⟩, ⟨1, 1⟩, ⟨2, 1⟩]) := by
  refine ⟨?_, ?_, corrCells_length p0 d0 N, corrCells_nodup hd p0 N,
    by decide, by decide⟩
  · intro c t h
    exact corridor_min hd (find_astar_min hd h)
  · intro c S h
    have hc : c = N := corridor_min hd (find_djikstra_min h)
    refine ⟨hc, ?_⟩
    obtain ⟨d', v, hv, hsubv, hsound⟩ :=
      runD_found_props fuelD (initD (corridorMaze p0 d0 N) p0 d0) c S
        (invD_init (corridorMaze p0 d0 N) p0 d0) h
    have hv' : ReachV (corridorMaze p0 d0 N) ⟨d0, p0⟩
        ⟨d', ptShift p0 d0 N⟩ c v := hv
    have htight : c = manPts p0 (ptShift p0 d0 N) := by
      rw [manPts_ptShift hd p0 N]
      exact hc
    obtain ⟨_, _, hveq⟩ := reachV_tight hd hv' htight
    intro q
    constructor
    · intro hq
      have hok : EntryOK (corridorMaze p0 d0 N) ⟨d0, p0⟩ q
          (ptShift p0 d0 N, c) := hsound q hq
      have hmem := entryOK_tight hd hok htight
      rw [← hc]
      exact hmem
    · intro hq
      apply hsubv
      rw [hveq, hc]
      exact hq

/-- Witness for C4 at the concrete 3×3 corridor (length 2): the cost equality
and the set characterization hold of the actual returned values. -/
theorem c4_corridor_costs_and_cells_witness :
    (2 : Nat) = 2 ∧
    ((⟨1, 1⟩ : Point) ∈ [(⟨0, 1⟩ : Point), ⟨1, 1⟩, ⟨2, 1⟩] ↔
      (⟨1, 1⟩ : Point) ∈ corrCells ⟨0, 1⟩ ⟨1, 0⟩ 2) := by
  have h := (c4_corridor_costs_and_cells ⟨0, 1⟩ ⟨1, 0⟩ 2 (by decide) 10 10).2.1 2
    [⟨0, 1⟩, ⟨1, 1⟩, ⟨2, 1⟩] (by decide)
  exact ⟨h.1, h.2 ⟨1, 1⟩⟩
